import Mathlib

/-!
# UpdatedMPI.c : partition-and-reduce statistics

A shallow embedding of `main` of `src/UpdatedMPI.c`.

* The counters `i`, `rank`, `size`, `n`, `totalNum` are C `int`s. `forLoopInt`
  is the strided loop with the 32-bit counter of the source: an `i += size`
  past `INT_MAX` is undefined behaviour and gives no result. `forLoop` is the
  same loop with a counter that is a natural number; the two agree when
  `n + size <= INT_MAX + 1` (`forLoopInt_eq_forLoop`).
* A `double` is a `Dbl`: a finite double is a rational number, every non-finite
  value is the single value `Dbl.nan`. The operations come in two arithmetics
  (`Arith`): `ieee`, in which every result is rounded once to the nearest
  double (`roundDouble`), and `exact`, without rounding. The data read from
  the file are finite.
* `procPass1A`, `procPass2A`, `procPass3A` and `mainA` are the program with the
  `int` counter in a chosen arithmetic. `procPass1`, `procPass2`, `procPass3`
  and `main` are the program with the counter a natural number, in exact
  arithmetic; within the bound of the counter `mainA exact` is `main`
  (`mainA_exact_eq_main`).
* `read_data` and `get_num_data_points` are only declared in the source; what
  they return (`n`, `totalNum`, the cells of `x` they filled) is an input.
* Each rank runs the same program.  A collective is embedded as a function of
  the list of the values contributed by ranks `0 .. size-1`.
* A loop runs on fuel; `none` stands for a run that gives no result (no fuel
  left, an access outside a buffer, or an overflow of the counter).
-/

namespace UpdatedMPI

/-! ## Doubles and buffers -/

/-- A `double`: a finite value, or a non-finite one (NaN, infinities). -/
inductive Dbl where
  | fin (q : ℚ)
  | nan
  deriving DecidableEq

namespace Dbl

/-- The `+` of two doubles in exact arithmetic: the sum is not rounded. -/
def add : Dbl → Dbl → Dbl
  | fin a, fin b => fin (a + b)
  | _, _ => nan

/-- The `-` of two doubles in exact arithmetic: the difference is not rounded. -/
def sub : Dbl → Dbl → Dbl
  | fin a, fin b => fin (a - b)
  | _, _ => nan

/-- The `*` of two doubles in exact arithmetic: the product is not rounded. -/
def mul : Dbl → Dbl → Dbl
  | fin a, fin b => fin (a * b)
  | _, _ => nan

/-- The expression `a / (double) n` in exact arithmetic: the quotient is not
rounded; a division by zero gives no finite value. -/
def divInt : Dbl → Nat → Dbl
  | fin a, n => if n = 0 then nan else fin (a / (n : ℚ))
  | nan, _ => nan

end Dbl

/-- A heap block obtained from `malloc`: its number of cells and their content. -/
structure Buf (α : Type) where
  len : Nat
  cell : Nat → α

/-- The read `b[i]`. -/
def Buf.get {α : Type} (b : Buf α) (i : Nat) : Option α :=
  if i < b.len then some (b.cell i) else none

/-- The write `b[i] = v`. -/
def Buf.set {α : Type} (b : Buf α) (i : Nat) (v : α) : Option (Buf α) :=
  if i < b.len then some { len := b.len, cell := Function.update b.cell i v } else none

/-! ## The strided loop -/

/-- The loop `for (int i = start; i < n; i += size) { if (i < n) { body } }`,
started at `i`, for at most `fuel` iterations, with a counter that is a natural
number and so never overflows (`forLoopInt` has the counter of the source). -/
def forLoop {σ : Type} (size n : Nat) (body : Nat → σ → Option σ) :
    Nat → Nat → σ → Option σ
  | 0, i, s => if i < n then none else some s
  | fuel + 1, i, s =>
    if i < n then
      (if i < n then body i s else some s).bind
        (fun s' => forLoop size n body fuel (i + size) s')
    else some s

/-- The indices the loop of rank `rank` visits, in the order of the visits. -/
def visited (rank size n fuel : Nat) : Option (List Nat) :=
  forLoop size n (fun i acc => some (acc ++ [i])) fuel rank []

/-! ## One rank -/

/-- The part of the state of one rank that the processing loops use. -/
structure Proc where
  rank : Nat
  size : Nat
  totalNum : Nat
  n : Nat
  x : Buf ℚ
  squaredDiffs : Buf Dbl

/-- What a run starts from: the group size, the two counts obtained by rank 0,
and for every rank the content of its block `x` before `MPI_Bcast(x, n, ...)`
(for rank 0: after `read_data`) and of its fresh block `squaredDiffs`. -/
structure Run where
  size : Nat
  totalNum : Nat
  n : Nat
  xmem : Nat → Nat → ℚ
  sqmem : Nat → Nat → Dbl

/-- The collective `MPI_Bcast(buf, count, ..., 0, ...)` seen from one rank: the
first `count` cells of the root's block are copied over the rank's block. -/
def bcastBuf {α : Type} (count : Nat) (root dst : Buf α) : Option (Buf α) :=
  if count ≤ root.len ∧ count ≤ dst.len then
    some { len := dst.len, cell := fun i => if i < count then root.cell i else dst.cell i }
  else none

/-- Lines 35-61 on rank `rank`: the counts are received, `x` is allocated with
`totalNum` cells and receives the first `n` cells of rank 0, `squaredDiffs` is
allocated with `n` cells. -/
def procInit (w : Run) (rank : Nat) : Option Proc :=
  (bcastBuf w.n { len := w.totalNum, cell := w.xmem 0 }
      { len := w.totalNum, cell := w.xmem rank }).map
    (fun x =>
      { rank := rank, size := w.size, totalNum := w.totalNum, n := w.n, x := x,
        squaredDiffs := { len := w.n, cell := w.sqmem rank } })

/-- Line 75: `local_sum += x[i]`. -/
def sumBody (i : Nat) (st : Proc × Dbl) : Option (Proc × Dbl) :=
  (st.1.x.get i).map (fun xi => (st.1, st.2.add (Dbl.fin xi)))

/-- Lines 72-77: the first pass of a rank; the result carries `local_sum`. -/
def procPass1 (fuel : Nat) (p : Proc) : Option (Proc × Dbl) :=
  forLoop p.size p.n sumBody fuel p.rank (p, Dbl.fin 0)

/-- Lines 88-89: `val = x[i] - mean; squaredDiffs[i] = val * val`. -/
def sqDiffBody (mean : Dbl) (i : Nat) (p : Proc) : Option Proc :=
  (p.x.get i).bind (fun xi =>
    (p.squaredDiffs.set i (((Dbl.fin xi).sub mean).mul ((Dbl.fin xi).sub mean))).map
      (fun sq =>
        { rank := p.rank, size := p.size, totalNum := p.totalNum, n := p.n, x := p.x,
          squaredDiffs := sq }))

/-- Line 97: `local_sum += squaredDiffs[i]`. -/
def sqSumBody (i : Nat) (st : Proc × Dbl) : Option (Proc × Dbl) :=
  (st.1.squaredDiffs.get i).map (fun v => (st.1, st.2.add v))

/-- Lines 86-99: the second pass of a rank, given the broadcast `mean`. -/
def procPass2 (fuel : Nat) (mean : Dbl) (p : Proc) : Option (Proc × Dbl) :=
  (forLoop p.size p.n (sqDiffBody mean) fuel p.rank p).bind
    (fun p' => forLoop p'.size p'.n sqSumBody fuel p'.rank (p', Dbl.fin 0))

/-- Lines 104-109: the start values of `minabs` and `maxabs`. -/
def absSeed (p : Proc) : Option (ℚ × ℚ) :=
  if p.totalNum > 0 then (p.x.get 0).map (fun x0 => (|x0|, |x0|)) else some (0, 0)

/-- Lines 112-114: one step of the min/max loop; the state carries
`minabs` and `maxabs`. -/
def absBody (i : Nat) (st : Proc × ℚ × ℚ) : Option (Proc × ℚ × ℚ) :=
  (st.1.x.get i).map (fun xi =>
    (st.1, (if |xi| < st.2.1 then |xi| else st.2.1),
      (if |xi| > st.2.2 then |xi| else st.2.2)))

/-- Lines 103-116: the third pass of a rank. -/
def procPass3 (fuel : Nat) (p : Proc) : Option (Proc × ℚ × ℚ) :=
  (absSeed p).bind (fun seed => forLoop p.size p.n absBody fuel p.rank (p, seed))

/-! ## The group -/

/-- The same step taken by every rank of the group. -/
def onRanks {α β : Type} (f : α → Option β) : List α → Option (List β)
  | [] => some []
  | a :: as => (f a).bind (fun b => (onRanks f as).map (fun bs => b :: bs))

/-- The collective `MPI_Reduce(..., op, 0, ...)`: the value rank 0 receives from
the contributions of ranks `0 .. size-1`, combined in the order of the ranks
(`MPI_SUM`, `MPI_MIN` and `MPI_MAX` are associative and commutative in exact
arithmetic). -/
def mpiReduce {α : Type} (op : α → α → α) : List α → Option α
  | [] => none
  | v :: vs => some (vs.foldl op v)

/-- What rank 0 prints on lines 123, 125 and 126. -/
structure Report where
  minAbs : ℚ
  maxAbs : ℚ
  mean : Dbl
  variance : Dbl

/-- The values rank 0 holds when the program ends. `divisions` lists the
divisions `sum / (double) n` it executed, as numerator and divisor. -/
structure Outcome where
  sum1 : Dbl
  mean : Dbl
  sum2 : Dbl
  variance : Dbl
  global_minabs : ℚ
  global_maxabs : ℚ
  divisions : List (Dbl × Nat)
  printed : Report

/-- Lines 35-127: the whole run, every rank in lock-step, with the counter a
natural number and in exact arithmetic (`mainA` has the counter and a chosen
arithmetic of the source). -/
def main (fuel : Nat) (w : Run) : Option Outcome :=
  (onRanks (procInit w) (List.range w.size)).bind (fun ps0 =>
  (onRanks (procPass1 fuel) ps0).bind (fun r1 =>
  (mpiReduce Dbl.add (r1.map Prod.snd)).bind (fun sum1 =>
  (onRanks (procPass2 fuel (sum1.divInt w.n)) (r1.map Prod.fst)).bind (fun r2 =>
  (mpiReduce Dbl.add (r2.map Prod.snd)).bind (fun sum2 =>
  (onRanks (procPass3 fuel) (r2.map Prod.fst)).bind (fun r3 =>
  (mpiReduce min (r3.map (fun st => st.2.1))).bind (fun gmin =>
  (mpiReduce max (r3.map (fun st => st.2.2))).bind (fun gmax =>
    some
      { sum1 := sum1
        mean := sum1.divInt w.n
        sum2 := sum2
        variance := sum2.divInt w.n
        global_minabs := gmin
        global_maxabs := gmax
        divisions := [(sum1, w.n), (sum2, w.n)]
        printed :=
          { minAbs := gmin, maxAbs := gmax, mean := sum2.divInt w.n,
            variance := sum2.divInt w.n } }))))))))

/-! ## The collective calls of one rank -/

/-- The steps of the pipeline a collective call can carry out. -/
inductive Step where
  | broadcastSize
  | broadcastData
  | reduceSum
  | broadcastMean
  | reduceSumSqDev
  | reduceMin
  | reduceMax
  deriving DecidableEq

/-- The variables of `main` that are handed to a collective call. -/
inductive Var where
  | totalNum
  | n
  | x
  | mean
  | local_sum
  | minabs
  | maxabs
  deriving DecidableEq

/-- The collective operations the program calls: `MPI_Bcast`, and `MPI_Reduce`
with `MPI_SUM`, `MPI_MIN` or `MPI_MAX`. -/
inductive Kind where
  | bcast
  | reduceSum
  | reduceMin
  | reduceMax
  deriving DecidableEq

/-- One collective call: the step it carries out, the operation, the variable
sent, the number of elements and the root rank. -/
structure Coll where
  step : Step
  kind : Kind
  buf : Var
  count : Nat
  root : Nat
  deriving DecidableEq

/-- The collective calls rank `rank` issues on lines 40, 54, 55, 78, 83, 100, 118
and 119, in program order, on a run on which its own computations between the
calls all give a result. None of the calls stands inside a conditional or a
loop. `mean` is the value the rank holds after line 83. -/
def procTrace (fuel : Nat) (w : Run) (rank : Nat) (mean : Dbl) : Option (List Coll) :=
  (procInit w rank).bind (fun p =>
    (procPass1 fuel p).bind (fun r1 =>
      (procPass2 fuel mean r1.1).bind (fun r2 =>
        (procPass3 fuel r2.1).map (fun _ =>
          [ { step := Step.broadcastSize, kind := Kind.bcast, buf := Var.totalNum,
              count := 1, root := 0 },
            { step := Step.broadcastSize, kind := Kind.bcast, buf := Var.n,
              count := 1, root := 0 },
            { step := Step.broadcastData, kind := Kind.bcast, buf := Var.x,
              count := p.n, root := 0 },
            { step := Step.reduceSum, kind := Kind.reduceSum, buf := Var.local_sum,
              count := 1, root := 0 },
            { step := Step.broadcastMean, kind := Kind.bcast, buf := Var.mean,
              count := 1, root := 0 },
            { step := Step.reduceSumSqDev, kind := Kind.reduceSum, buf := Var.local_sum,
              count := 1, root := 0 },
            { step := Step.reduceMin, kind := Kind.reduceMin, buf := Var.minabs,
              count := 1, root := 0 },
            { step := Step.reduceMax, kind := Kind.reduceMax, buf := Var.maxabs,
              count := 1, root := 0 } ]))))

/-- The collective calls of every rank of a run, rank by rank; the `mean` a
rank holds is the one rank 0 computed. -/
def mainTrace (fuel : Nat) (w : Run) : Option (List (List Coll)) :=
  (main fuel w).bind (fun o =>
    onRanks (fun rank => procTrace fuel w rank o.mean) (List.range w.size))

/-! ## The values the program is compared with -/

/-- The indices the loop started at `i` reaches with `fuel` iterations. -/
def strideFrom (size n : Nat) : Nat → Nat → List Nat
  | 0, _ => []
  | fuel + 1, i => if i < n then i :: strideFrom size n fuel (i + size) else []

/-- The indices `rank, rank + size, rank + 2 * size, ...` below `n`. -/
def owned (rank size n : Nat) : List Nat :=
  (List.range ((n - rank + size - 1) / size)).map (fun j => rank + j * size)

/-- The sum a single process obtains by one sequential pass over `x[0 .. n-1]`,
as the specification words it. -/
def seqSum (x : Nat → ℚ) (n : Nat) : ℚ :=
  (List.range n).foldl (fun s i => s + x i) 0

/-- The block `x` of rank `rank` once `MPI_Bcast(x, n, ...)` is done. -/
def xOf (w : Run) (rank : Nat) : Buf ℚ :=
  { len := w.totalNum, cell := fun i => if i < w.n then w.xmem 0 i else w.xmem rank i }

/-- The state of rank `rank` whose block `squaredDiffs` holds `sq`. -/
def procAt (w : Run) (rank : Nat) (sq : Nat → Dbl) : Proc :=
  { rank := rank, size := w.size, totalNum := w.totalNum, n := w.n, x := xOf w rank,
    squaredDiffs := { len := w.n, cell := sq } }

/-- The value `(x - mean) * (x - mean)` of line 89. -/
def sqDev (mean : Dbl) (xi : ℚ) : Dbl :=
  ((Dbl.fin xi).sub mean).mul ((Dbl.fin xi).sub mean)

/-- The sum of the data cells a rank owns. -/
def localSum (w : Run) (rank : Nat) : ℚ :=
  ((owned rank w.size w.n).map (w.xmem 0)).sum

/-- The sum of the squared deviations of the data cells a rank owns. -/
def localSqDev (w : Run) (mean : Dbl) (rank : Nat) : Dbl :=
  (owned rank w.size w.n).foldl (fun a k => a.add (sqDev mean (w.xmem 0 k))) (Dbl.fin 0)

/-- The content of `squaredDiffs` of a rank after its store loop. -/
def sqAfter (w : Run) (mean : Dbl) (rank : Nat) (sq : Nat → Dbl) : Nat → Dbl :=
  fun k => if k ∈ owned rank w.size w.n then sqDev mean (w.xmem 0 k) else sq k

/-- The start value of `minabs` and `maxabs` on a rank. -/
def seedOf (w : Run) (rank : Nat) : ℚ :=
  if w.totalNum > 0 then |(xOf w rank).cell 0| else 0

/-- The `minabs` of a rank after its loop. -/
def localMin (w : Run) (rank : Nat) : ℚ :=
  (owned rank w.size w.n).foldl (fun m k => min m |w.xmem 0 k|) (seedOf w rank)

/-- The `maxabs` of a rank after its loop. -/
def localMax (w : Run) (rank : Nat) : ℚ :=
  (owned rank w.size w.n).foldl (fun m k => max m |w.xmem 0 k|) (seedOf w rank)

/-- The data set `[2.0, 4.0, 4.0, 4.0, 5.0, 5.0, 7.0, 9.0]`. -/
def dataA : Nat → ℚ := fun i => [2, 4, 4, 4, 5, 5, 7, 9].getD i 0

/-- The data set `[-3.0, 1.0, -7.5, 2.0]`. -/
def dataB : Nat → ℚ := fun i => [-3, 1, -15 / 2, 2].getD i 0

/-- A run on `dataA` with `P` ranks; every block starts with the same content. -/
def runA (P : Nat) : Run :=
  { size := P, totalNum := 8, n := 8, xmem := fun _ => dataA, sqmem := fun _ _ => Dbl.nan }

/-- A run on `dataB` with `P` ranks. -/
def runB (P : Nat) : Run :=
  { size := P, totalNum := 4, n := 4, xmem := fun _ => dataB, sqmem := fun _ _ => Dbl.nan }

/-- A run that reads no value although `totalNum` were announced; the cells of
the block `x` of every rank hold `junk`. -/
def runEmpty (P totalNum : Nat) (junk : ℚ) : Run :=
  { size := P, totalNum := totalNum, n := 0, xmem := fun _ _ => junk,
    sqmem := fun _ _ => Dbl.nan }

/-- A run of two ranks on the one value `3.0`. -/
def runOne : Run :=
  { size := 2, totalNum := 1, n := 1, xmem := fun _ _ => 3, sqmem := fun _ _ => Dbl.nan }

/-- The steps of the pipeline in the order the specification lists them. -/
def specSteps : List Step :=
  [Step.broadcastSize, Step.broadcastData, Step.reduceSum, Step.broadcastMean,
    Step.reduceSumSqDev, Step.reduceMin, Step.reduceMax]

/-! ## The program with a 32-bit counter and a chosen double arithmetic -/

/-- The largest value of a C `int`. -/
def INT_MAX : Nat := 2147483647

/-- The loop `for (int i = start; i < n; i += size) { if (i < n) { body } }` with
the `int` counter of the source: when `i += size` would pass `INT_MAX` the
behaviour is undefined and the run gives no result. -/
def forLoopInt {σ : Type} (size n : Nat) (body : Nat → σ → Option σ) :
    Nat → Nat → σ → Option σ
  | 0, i, s => if i < n then none else some s
  | fuel + 1, i, s =>
    if i < n then
      (if i < n then body i s else some s).bind
        (fun s' =>
          if i + size ≤ INT_MAX then forLoopInt size n body fuel (i + size) s' else none)
    else some s

/-- The indices the loop with the `int` counter visits on rank `rank`. -/
def visitedInt (rank size n fuel : Nat) : Option (List Nat) :=
  forLoopInt size n (fun i acc => some (acc ++ [i])) fuel rank []

/-- The power `2^e` for an integer exponent. -/
def pow2 (e : ℤ) : ℚ :=
  if 0 ≤ e then ((2 ^ e.toNat : ℕ) : ℚ) else 1 / ((2 ^ (-e).toNat : ℕ) : ℚ)

/-- The number of halvings that bring `m` below `2`, at most `fuel` of them. -/
def log2Fuel : Nat → Nat → Nat
  | 0, _ => 0
  | fuel + 1, m => if m < 2 then 0 else log2Fuel fuel (m / 2) + 1

/-- The integer part of the binary logarithm of `m`. -/
def floorLog2 (m : Nat) : Nat := log2Fuel m m

/-- The double nearest to a rational number, a tie going to the even
significand (IEEE 754 binary64, rounding to nearest); a result too large to be
finite is `Dbl.nan`. -/
def roundDouble (q : ℚ) : Dbl :=
  if q = 0 then Dbl.fin 0
  else
    let a : ℚ := |q|
    let k : ℤ := (floorLog2 a.num.natAbs : ℤ) - (floorLog2 a.den : ℤ)
    let e : ℤ := if pow2 k ≤ a then k else k - 1
    let u : ℚ := pow2 (max e (-1022) - 52)
    let t : ℚ := a / u
    let f : ℤ := ⌊t⌋
    let m : ℤ :=
      if t - f < 1 / 2 then f
      else if 1 / 2 < t - f then f + 1
      else if f % 2 = 0 then f else f + 1
    let r : ℚ := m * u
    if r < pow2 1024 then Dbl.fin (if q < 0 then -r else r) else Dbl.nan

/-- The result of an operation on doubles, rounded. -/
def Dbl.round : Dbl → Dbl
  | Dbl.fin q => roundDouble q
  | Dbl.nan => Dbl.nan

/-- The four operations on doubles the program uses. -/
structure Arith where
  add : Dbl → Dbl → Dbl
  sub : Dbl → Dbl → Dbl
  mul : Dbl → Dbl → Dbl
  divInt : Dbl → Nat → Dbl

/-- The operations without rounding: exact arithmetic. -/
def exact : Arith :=
  { add := Dbl.add, sub := Dbl.sub, mul := Dbl.mul, divInt := Dbl.divInt }

/-- The operations of C `double`: every result is rounded to the nearest double. -/
def ieee : Arith :=
  { add := fun a b => (a.add b).round
    sub := fun a b => (a.sub b).round
    mul := fun a b => (a.mul b).round
    divInt := fun a n => (a.divInt n).round }

/-- Line 75: `local_sum += x[i]`. -/
def sumBodyA (A : Arith) (i : Nat) (st : Proc × Dbl) : Option (Proc × Dbl) :=
  (st.1.x.get i).map (fun xi => (st.1, A.add st.2 (Dbl.fin xi)))

/-- Lines 72-77: the first pass of a rank. -/
def procPass1A (A : Arith) (fuel : Nat) (p : Proc) : Option (Proc × Dbl) :=
  forLoopInt p.size p.n (sumBodyA A) fuel p.rank (p, Dbl.fin 0)

/-- Lines 88-89: `val = x[i] - mean; squaredDiffs[i] = val * val`. -/
def sqDiffBodyA (A : Arith) (mean : Dbl) (i : Nat) (p : Proc) : Option Proc :=
  (p.x.get i).bind (fun xi =>
    (p.squaredDiffs.set i (A.mul (A.sub (Dbl.fin xi) mean) (A.sub (Dbl.fin xi) mean))).map
      (fun sq =>
        { rank := p.rank, size := p.size, totalNum := p.totalNum, n := p.n, x := p.x,
          squaredDiffs := sq }))

/-- Line 97: `local_sum += squaredDiffs[i]`. -/
def sqSumBodyA (A : Arith) (i : Nat) (st : Proc × Dbl) : Option (Proc × Dbl) :=
  (st.1.squaredDiffs.get i).map (fun v => (st.1, A.add st.2 v))

/-- Lines 86-99: the second pass of a rank, given the broadcast `mean`. -/
def procPass2A (A : Arith) (fuel : Nat) (mean : Dbl) (p : Proc) : Option (Proc × Dbl) :=
  (forLoopInt p.size p.n (sqDiffBodyA A mean) fuel p.rank p).bind
    (fun p' => forLoopInt p'.size p'.n (sqSumBodyA A) fuel p'.rank (p', Dbl.fin 0))

/-- Lines 103-116: the third pass of a rank. -/
def procPass3A (fuel : Nat) (p : Proc) : Option (Proc × ℚ × ℚ) :=
  (absSeed p).bind (fun seed => forLoopInt p.size p.n absBody fuel p.rank (p, seed))

/-- Lines 35-127: the whole run, every rank in lock-step, with the `int`
counter and the arithmetic `A`. -/
def mainA (A : Arith) (fuel : Nat) (w : Run) : Option Outcome :=
  (onRanks (procInit w) (List.range w.size)).bind (fun ps0 =>
  (onRanks (procPass1A A fuel) ps0).bind (fun r1 =>
  (mpiReduce A.add (r1.map Prod.snd)).bind (fun sum1 =>
  (onRanks (procPass2A A fuel (A.divInt sum1 w.n)) (r1.map Prod.fst)).bind (fun r2 =>
  (mpiReduce A.add (r2.map Prod.snd)).bind (fun sum2 =>
  (onRanks (procPass3A fuel) (r2.map Prod.fst)).bind (fun r3 =>
  (mpiReduce min (r3.map (fun st => st.2.1))).bind (fun gmin =>
  (mpiReduce max (r3.map (fun st => st.2.2))).bind (fun gmax =>
    some
      { sum1 := sum1
        mean := A.divInt sum1 w.n
        sum2 := sum2
        variance := A.divInt sum2 w.n
        global_minabs := gmin
        global_maxabs := gmax
        divisions := [(sum1, w.n), (sum2, w.n)]
        printed :=
          { minAbs := gmin, maxAbs := gmax, mean := A.divInt sum2 w.n,
            variance := A.divInt sum2 w.n } }))))))))

/-- A run of `P` ranks on the data set `[1e16, 1.0, -1e16]`. -/
def runBig (P : Nat) : Run :=
  { size := P, totalNum := 3, n := 3,
    xmem := fun _ i => [10000000000000000, 1, -10000000000000000].getD i 0,
    sqmem := fun _ _ => Dbl.nan }

/-- A run of one rank on the one value `134217729.0`, that is `2^27 + 1`. -/
def runSq : Run :=
  { size := 1, totalNum := 1, n := 1, xmem := fun _ _ => 134217729,
    sqmem := fun _ _ => Dbl.nan }

/-- The value `(x - mean) * (x - mean)` of line 89 in the arithmetic `A`. -/
def sqDevA (A : Arith) (mean : Dbl) (xi : ℚ) : Dbl :=
  A.mul (A.sub (Dbl.fin xi) mean) (A.sub (Dbl.fin xi) mean)

/-- The `local_sum` of a rank after its first pass, in the arithmetic `A`. -/
def localSumA (A : Arith) (w : Run) (rank : Nat) : Dbl :=
  (owned rank w.size w.n).foldl (fun a k => A.add a (Dbl.fin (w.xmem 0 k))) (Dbl.fin 0)

/-- The content of `squaredDiffs` of a rank after its store loop, in the
arithmetic `A`. -/
def sqAfterA (A : Arith) (w : Run) (mean : Dbl) (rank : Nat) (sq : Nat → Dbl) : Nat → Dbl :=
  fun k => if k ∈ owned rank w.size w.n then sqDevA A mean (w.xmem 0 k) else sq k

/-- The `local_sum` of a rank after its second pass, in the arithmetic `A`. -/
def localSqDevA (A : Arith) (w : Run) (mean : Dbl) (rank : Nat) : Dbl :=
  (owned rank w.size w.n).foldl (fun a k => A.add a (sqDevA A mean (w.xmem 0 k))) (Dbl.fin 0)

/-- One step of a loop that adds `(x[i] - mean)^2` to `local_sum` directly, in
the arithmetic `A`, as the specification words the second local aggregate. -/
def directBodyA (A : Arith) (mean : Dbl) (i : Nat) (st : Proc × Dbl) : Option (Proc × Dbl) :=
  (st.1.x.get i).map (fun xi =>
    (st.1, A.add st.2 (A.mul (A.sub (Dbl.fin xi) mean) (A.sub (Dbl.fin xi) mean))))

/-- The second local aggregate summed directly over the strided loop, without
the block `squaredDiffs`, in the arithmetic `A`. -/
def directSqDevA (A : Arith) (fuel : Nat) (mean : Dbl) (p : Proc) : Option (Proc × Dbl) :=
  forLoopInt p.size p.n (directBodyA A mean) fuel p.rank (p, Dbl.fin 0)

theorem forLoop_eq_foldlM {σ : Type} (size n : Nat) (body : Nat → σ → Option σ)
    (hsize : 0 < size) :
    ∀ (fuel i : Nat) (s : σ), n ≤ i + fuel →
      forLoop size n body fuel i s = (strideFrom size n fuel i).foldlM (fun t k => body k t) s := by
  intro fuel
  induction fuel with
  | zero =>
    intro i s h
    have hi : ¬ i < n := by omega
    simp [forLoop, strideFrom, hi]
  | succ k ih =>
    intro i s h
    by_cases hi : i < n
    · cases hb : body i s with
      | none => simp [forLoop, strideFrom, hi, hb]
      | some s' => simp [forLoop, strideFrom, hi, hb, ih (i + size) s' (by omega)]
    · simp [forLoop, strideFrom, hi]

theorem count_zero (size n i : Nat) (hsize : 0 < size) (hi : ¬ i < n) :
    (n - i + size - 1) / size = 0 := by
  apply Nat.div_eq_of_lt
  omega

theorem count_succ (size n i : Nat) (hsize : 0 < size) (hi : i < n) :
    (n - i + size - 1) / size = (n - (i + size) + size - 1) / size + 1 := by
  by_cases h : i + size ≤ n
  · have e : n - i + size - 1 = (n - (i + size) + size - 1) + size := by omega
    rw [e, Nat.add_div_right _ hsize]
  · have e0 : (n - (i + size) + size - 1) / size = 0 := count_zero size n (i + size) hsize (by omega)
    rw [e0]
    apply Nat.div_eq_of_lt_le <;> omega

theorem strideFrom_eq_owned (size n : Nat) (hsize : 0 < size) :
    ∀ (fuel i : Nat), n ≤ i + fuel → strideFrom size n fuel i = owned i size n := by
  intro fuel
  induction fuel with
  | zero =>
    intro i h
    simp [strideFrom, owned, count_zero size n i hsize (by omega)]
  | succ k ih =>
    intro i h
    by_cases hi : i < n
    · simp only [strideFrom, hi, if_true, ih (i + size) (by omega)]
      simp only [owned, count_succ size n i hsize hi, List.range_succ_eq_map, List.map_cons,
        List.map_map]
      simp only [Nat.zero_mul, Nat.add_zero, List.cons.injEq, true_and]
      apply List.map_congr_left
      intro j _
      simp only [Function.comp, Nat.succ_mul]
      omega
    · simp [strideFrom, owned, hi, count_zero size n i hsize hi]

theorem mem_owned_iff (rank size n i : Nat) (hsize : 0 < size) :
    i ∈ owned rank size n ↔ i < n ∧ ∃ j, i = rank + j * size := by
  unfold owned
  rw [List.mem_map]
  constructor
  · rintro ⟨j, hj, rfl⟩
    rw [List.mem_range] at hj
    have h1 : (j + 1) * size ≤ n - rank + size - 1 :=
      (Nat.le_div_iff_mul_le hsize).1 hj
    rw [Nat.succ_mul] at h1
    exact ⟨by omega, j, rfl⟩
  · rintro ⟨hi, j, rfl⟩
    refine ⟨j, ?_, rfl⟩
    rw [List.mem_range]
    apply (Nat.le_div_iff_mul_le hsize).2
    rw [Nat.succ_mul]
    omega

theorem mem_owned_mod (rank size n i : Nat) (hr : rank < size) :
    i ∈ owned rank size n ↔ i < n ∧ i % size = rank := by
  rw [mem_owned_iff rank size n i (by omega)]
  constructor
  · rintro ⟨hi, j, rfl⟩
    exact ⟨hi, by rw [Nat.add_mul_mod_self_right, Nat.mod_eq_of_lt hr]⟩
  · rintro ⟨hi, hm⟩
    refine ⟨hi, i / size, ?_⟩
    have := Nat.mod_add_div i size
    rw [hm, Nat.mul_comm] at this
    exact this.symm

theorem owned_sorted (rank size n : Nat) (hsize : 0 < size) :
    (owned rank size n).Pairwise (fun a b => a < b) := by
  unfold owned
  apply List.Pairwise.map _ _ (List.pairwise_lt_range _)
  intro a b hab
  have : a * size < b * size := Nat.mul_lt_mul_of_pos_right hab hsize
  omega

theorem owned_nodup (rank size n : Nat) (hsize : 0 < size) : (owned rank size n).Nodup :=
  (owned_sorted rank size n hsize).imp (fun h => Nat.ne_of_lt h)

theorem owned_get (rank size n j : Nat) (hj : j < (owned rank size n).length) :
    (owned rank size n).get ⟨j, hj⟩ = rank + j * size := by
  simp [owned]

theorem owned_disjoint (r s size n : Nat) (hr : r < size) (hs : s < size) (hne : r ≠ s) :
    (owned r size n).Disjoint (owned s size n) := by
  intro i h1 h2
  rw [mem_owned_mod r size n i hr] at h1
  rw [mem_owned_mod s size n i hs] at h2
  exact hne (h1.2.symm.trans h2.2)

theorem owned_flatten_perm (size n : Nat) (hsize : 0 < size) :
    ((List.range size).map (fun r => owned r size n)).flatten.Perm (List.range n) := by
  rw [List.perm_ext_iff_of_nodup _ (List.nodup_range n)]
  · intro i
    simp only [List.mem_flatten, List.mem_map, List.mem_range]
    constructor
    · rintro ⟨l, ⟨r, hr, rfl⟩, hi⟩
      exact ((mem_owned_mod r size n i hr).1 hi).1
    · intro hi
      exact ⟨_, ⟨i % size, Nat.mod_lt i hsize, rfl⟩,
        (mem_owned_mod (i % size) size n i (Nat.mod_lt i hsize)).2 ⟨hi, rfl⟩⟩
  · rw [List.nodup_flatten]
    constructor
    · intro l hl
      rw [List.mem_map] at hl
      obtain ⟨r, _, rfl⟩ := hl
      exact owned_nodup r size n hsize
    · rw [List.pairwise_map]
      apply List.Pairwise.imp_of_mem _ (List.pairwise_lt_range size)
      intro r s hr hs hlt
      rw [List.mem_range] at hr hs
      exact owned_disjoint r s size n hr hs (Nat.ne_of_lt hlt)

theorem visited_eq_owned (rank size n fuel : Nat) (hsize : 0 < size) (hfuel : n ≤ fuel) :
    visited rank size n fuel = some (owned rank size n) := by
  unfold visited
  rw [forLoop_eq_foldlM size n _ hsize fuel rank [] (by omega),
    strideFrom_eq_owned size n hsize fuel rank (by omega)]
  have key : ∀ (l acc : List Nat),
      List.foldlM (fun (t : List Nat) (k : Nat) => some (t ++ [k])) acc l = some (acc ++ l) := by
    intro l
    induction l with
    | nil => intro acc; simp
    | cons a l ih => intro acc; simp [ih]
  simpa using key (owned rank size n) []

theorem onRanks_map {α β γ : Type} (f : β → Option γ) (g : α → β) (h : α → γ) (l : List α)
    (hfg : ∀ a ∈ l, f (g a) = some (h a)) : onRanks f (l.map g) = some (l.map h) := by
  induction l with
  | nil => rfl
  | cons a l ih =>
    have h1 := hfg a (List.mem_cons_self a l)
    have h2 := ih (fun b hb => hfg b (List.mem_cons_of_mem a hb))
    simp [onRanks, h1, h2]

theorem onRanks_range {γ : Type} (f : Nat → Option γ) (h : Nat → γ) (k : Nat)
    (hfg : ∀ r, r < k → f r = some (h r)) :
    onRanks f (List.range k) = some ((List.range k).map h) := by
  have := onRanks_map f id h (List.range k) (fun a ha => hfg a (List.mem_range.1 ha))
  simpa using this

/-! ## The passes of one rank -/

theorem foldlM_cons_some {σ : Type} (f : σ → Nat → Option σ) (s s' : σ) (i : Nat)
    (l : List Nat) (h : f s i = some s') : (i :: l).foldlM f s = l.foldlM f s' := by
  simp [List.foldlM_cons, h]

theorem sum_fold (p : Proc) :
    ∀ (l : List Nat) (a : ℚ), (∀ i ∈ l, i < p.x.len) →
      l.foldlM (fun t k => sumBody k t) (p, Dbl.fin a)
        = some (p, Dbl.fin (a + (l.map p.x.cell).sum)) := by
  intro l
  induction l with
  | nil => intro a _; simp
  | cons i l ih =>
    intro a h
    have hi : i < p.x.len := h i (List.mem_cons_self i l)
    have ht := ih (a + p.x.cell i) (fun k hk => h k (List.mem_cons_of_mem i hk))
    have hstep : sumBody i (p, Dbl.fin a) = some (p, Dbl.fin (a + p.x.cell i)) := by
      simp [sumBody, Buf.get, hi, Dbl.add]
    rw [foldlM_cons_some _ _ _ i l hstep, ht, List.map_cons, List.sum_cons, add_assoc]

theorem sqDiff_fold (mean : Dbl) (rank size totalNum n : Nat) (x : Buf ℚ) (len : Nat) :
    ∀ (l : List Nat) (cell : Nat → Dbl), (∀ i ∈ l, i < x.len ∧ i < len) →
      l.foldlM (fun t k => sqDiffBody mean k t)
          { rank := rank, size := size, totalNum := totalNum, n := n, x := x,
            squaredDiffs := { len := len, cell := cell } }
        = some { rank := rank, size := size, totalNum := totalNum, n := n, x := x,
                 squaredDiffs :=
                  { len := len,
                    cell := fun k => if k ∈ l then sqDev mean (x.cell k) else cell k } } := by
  intro l
  induction l with
  | nil => intro cell _; simp
  | cons i l ih =>
    intro cell h
    have hi := h i (List.mem_cons_self i l)
    have ht := ih (Function.update cell i (sqDev mean (x.cell i)))
      (fun k hk => h k (List.mem_cons_of_mem i hk))
    have hstep : sqDiffBody mean i
        { rank := rank, size := size, totalNum := totalNum, n := n, x := x,
          squaredDiffs := { len := len, cell := cell } }
        = some { rank := rank, size := size, totalNum := totalNum, n := n, x := x,
                 squaredDiffs :=
                  { len := len, cell := Function.update cell i (sqDev mean (x.cell i)) } } := by
      simp [sqDiffBody, Buf.get, Buf.set, hi.1, hi.2, sqDev]
    rw [foldlM_cons_some _ _ _ i l hstep, ht]
    congr 3
    funext k
    by_cases hki : k = i
    · subst hki; simp
    · simp [hki, Function.update_noteq hki]

theorem sqSum_fold (p : Proc) :
    ∀ (l : List Nat) (acc : Dbl), (∀ i ∈ l, i < p.squaredDiffs.len) →
      l.foldlM (fun t k => sqSumBody k t) (p, acc)
        = some (p, l.foldl (fun a k => a.add (p.squaredDiffs.cell k)) acc) := by
  intro l
  induction l with
  | nil => intro acc _; simp
  | cons i l ih =>
    intro acc h
    have hi := h i (List.mem_cons_self i l)
    have ht := ih (acc.add (p.squaredDiffs.cell i)) (fun k hk => h k (List.mem_cons_of_mem i hk))
    have hstep : sqSumBody i (p, acc) = some (p, acc.add (p.squaredDiffs.cell i)) := by
      simp [sqSumBody, Buf.get, hi]
    rw [foldlM_cons_some _ _ _ i l hstep, ht, List.foldl_cons]

theorem ite_lt_eq_min (v m : ℚ) : (if v < m then v else m) = min m v := by
  rcases lt_or_le v m with h | h
  · rw [if_pos h, min_eq_right (le_of_lt h)]
  · rw [if_neg (not_lt.2 h), min_eq_left h]

theorem ite_gt_eq_max (v m : ℚ) : (if v > m then v else m) = max m v := by
  rcases lt_or_le m v with h | h
  · rw [if_pos h, max_eq_right (le_of_lt h)]
  · rw [if_neg (not_lt.2 h), max_eq_left h]

theorem abs_fold (p : Proc) :
    ∀ (l : List Nat) (mn mx : ℚ), (∀ i ∈ l, i < p.x.len) →
      l.foldlM (fun t k => absBody k t) (p, mn, mx)
        = some (p, l.foldl (fun m k => min m |p.x.cell k|) mn,
            l.foldl (fun m k => max m |p.x.cell k|) mx) := by
  intro l
  induction l with
  | nil => intro mn mx _; simp
  | cons i l ih =>
    intro mn mx h
    have hi := h i (List.mem_cons_self i l)
    have ht := ih (min mn |p.x.cell i|) (max mx |p.x.cell i|)
      (fun k hk => h k (List.mem_cons_of_mem i hk))
    have hstep : absBody i (p, mn, mx)
        = some (p, min mn |p.x.cell i|, max mx |p.x.cell i|) := by
      simp [absBody, Buf.get, hi, ite_lt_eq_min, ite_gt_eq_max]
    rw [foldlM_cons_some _ _ _ i l hstep, ht, List.foldl_cons, List.foldl_cons]

theorem owned_lt (rank size n i : Nat) (hsize : 0 < size) (hi : i ∈ owned rank size n) :
    i < n :=
  ((mem_owned_iff rank size n i hsize).1 hi).1

theorem procInit_eq (w : Run) (rank : Nat) (hn : w.n ≤ w.totalNum) :
    procInit w rank = some (procAt w rank (w.sqmem rank)) := by
  simp [procInit, bcastBuf, hn, procAt, xOf]

theorem procPass1_eq (w : Run) (rank fuel : Nat) (sq : Nat → Dbl) (hsize : 0 < w.size)
    (hn : w.n ≤ w.totalNum) (hfuel : w.n ≤ fuel) :
    procPass1 fuel (procAt w rank sq)
      = some (procAt w rank sq, Dbl.fin (localSum w rank)) := by
  unfold procPass1
  have e1 : (procAt w rank sq).size = w.size := rfl
  have e2 : (procAt w rank sq).n = w.n := rfl
  have e3 : (procAt w rank sq).rank = rank := rfl
  rw [e1, e2, e3, forLoop_eq_foldlM w.size w.n _ hsize fuel rank _ (by omega),
    strideFrom_eq_owned w.size w.n hsize fuel rank (by omega),
    sum_fold (procAt w rank sq) (owned rank w.size w.n) 0
      (fun i hi => lt_of_lt_of_le (owned_lt rank w.size w.n i hsize hi) hn)]
  have e4 : (owned rank w.size w.n).map (procAt w rank sq).x.cell
      = (owned rank w.size w.n).map (w.xmem 0) := by
    apply List.map_congr_left
    intro i hi
    simp [procAt, xOf, owned_lt rank w.size w.n i hsize hi]
  rw [e4, zero_add]
  rfl

theorem procPass2_eq (w : Run) (mean : Dbl) (rank fuel : Nat) (sq : Nat → Dbl)
    (hsize : 0 < w.size) (hn : w.n ≤ w.totalNum) (hfuel : w.n ≤ fuel) :
    procPass2 fuel mean (procAt w rank sq)
      = some (procAt w rank (sqAfter w mean rank sq), localSqDev w mean rank) := by
  unfold procPass2
  have e1 : (procAt w rank sq).size = w.size := rfl
  have e2 : (procAt w rank sq).n = w.n := rfl
  have e3 : (procAt w rank sq).rank = rank := rfl
  have hx : ∀ i ∈ owned rank w.size w.n, (xOf w rank).cell i = w.xmem 0 i := by
    intro i hi
    simp [xOf, owned_lt rank w.size w.n i hsize hi]
  have hcell : (fun k => if k ∈ owned rank w.size w.n then sqDev mean ((xOf w rank).cell k)
      else sq k) = sqAfter w mean rank sq := by
    funext k
    by_cases hk : k ∈ owned rank w.size w.n
    · simp [sqAfter, hk, hx k hk]
    · simp [sqAfter, hk]
  rw [e1, e2, e3, forLoop_eq_foldlM w.size w.n _ hsize fuel rank _ (by omega),
    strideFrom_eq_owned w.size w.n hsize fuel rank (by omega)]
  have h1 := sqDiff_fold mean rank w.size w.totalNum w.n (xOf w rank) w.n
    (owned rank w.size w.n) sq
    (fun i hi => ⟨lt_of_lt_of_le (owned_lt rank w.size w.n i hsize hi) hn,
      owned_lt rank w.size w.n i hsize hi⟩)
  rw [hcell] at h1
  have h1' : List.foldlM (fun t k => sqDiffBody mean k t) (procAt w rank sq)
      (owned rank w.size w.n) = some (procAt w rank (sqAfter w mean rank sq)) := h1
  rw [h1', Option.some_bind]
  have e1' : (procAt w rank (sqAfter w mean rank sq)).size = w.size := rfl
  have e2' : (procAt w rank (sqAfter w mean rank sq)).n = w.n := rfl
  have e3' : (procAt w rank (sqAfter w mean rank sq)).rank = rank := rfl
  rw [e1', e2', e3', forLoop_eq_foldlM w.size w.n _ hsize fuel rank _ (by omega),
    strideFrom_eq_owned w.size w.n hsize fuel rank (by omega),
    sqSum_fold _ (owned rank w.size w.n) (Dbl.fin 0)
      (fun i hi => owned_lt rank w.size w.n i hsize hi)]
  congr 2
  unfold localSqDev
  apply List.foldl_ext
  intro a k hk
  simp [procAt, sqAfter, hk]

theorem procPass3_eq (w : Run) (rank fuel : Nat) (sq : Nat → Dbl) (hsize : 0 < w.size)
    (hn : w.n ≤ w.totalNum) (hfuel : w.n ≤ fuel) :
    procPass3 fuel (procAt w rank sq)
      = some (procAt w rank sq, localMin w rank, localMax w rank) := by
  unfold procPass3
  have hseed : absSeed (procAt w rank sq) = some (seedOf w rank, seedOf w rank) := by
    by_cases ht : w.totalNum > 0
    · simp [absSeed, procAt, seedOf, ht, Buf.get, xOf]
    · simp [absSeed, procAt, seedOf, ht]
  have e1 : (procAt w rank sq).size = w.size := rfl
  have e2 : (procAt w rank sq).n = w.n := rfl
  have e3 : (procAt w rank sq).rank = rank := rfl
  rw [hseed, Option.some_bind, e1, e2, e3,
    forLoop_eq_foldlM w.size w.n _ hsize fuel rank _ (by omega),
    strideFrom_eq_owned w.size w.n hsize fuel rank (by omega),
    abs_fold _ (owned rank w.size w.n) _ _
      (fun i hi => lt_of_lt_of_le (owned_lt rank w.size w.n i hsize hi) hn)]
  have hx : ∀ i ∈ owned rank w.size w.n, (procAt w rank sq).x.cell i = w.xmem 0 i := by
    intro i hi
    simp [procAt, xOf, owned_lt rank w.size w.n i hsize hi]
  congr 3
  · unfold localMin
    apply List.foldl_ext
    intro a k hk
    rw [hx k hk]
  · unfold localMax
    apply List.foldl_ext
    intro a k hk
    rw [hx k hk]

/-! ## The whole run -/

theorem main_eq (w : Run) (fuel : Nat) (hsize : 0 < w.size) (hn : w.n ≤ w.totalNum)
    (hfuel : w.n ≤ fuel) :
    main fuel w =
      (mpiReduce Dbl.add ((List.range w.size).map (fun r => Dbl.fin (localSum w r)))).bind
        (fun sum1 =>
      (mpiReduce Dbl.add
          ((List.range w.size).map (localSqDev w (sum1.divInt w.n)))).bind (fun sum2 =>
      (mpiReduce min ((List.range w.size).map (localMin w))).bind (fun gmin =>
      (mpiReduce max ((List.range w.size).map (localMax w))).bind (fun gmax =>
        some
          { sum1 := sum1
            mean := sum1.divInt w.n
            sum2 := sum2
            variance := sum2.divInt w.n
            global_minabs := gmin
            global_maxabs := gmax
            divisions := [(sum1, w.n), (sum2, w.n)]
            printed :=
              { minAbs := gmin, maxAbs := gmax, mean := sum2.divInt w.n,
                variance := sum2.divInt w.n } })))) := by
  unfold main
  rw [onRanks_range (procInit w) (fun r => procAt w r (w.sqmem r)) w.size
      (fun r _ => procInit_eq w r hn), Option.some_bind,
    onRanks_map (procPass1 fuel) _
      (fun r => (procAt w r (w.sqmem r), Dbl.fin (localSum w r))) _
      (fun r _ => procPass1_eq w r fuel _ hsize hn hfuel), Option.some_bind]
  simp only [List.map_map, Function.comp_def]
  refine congrArg _ (funext fun sum1 => ?_)
  rw [onRanks_map (procPass2 fuel (sum1.divInt w.n)) _
      (fun r => (procAt w r (sqAfter w (sum1.divInt w.n) r (w.sqmem r)),
        localSqDev w (sum1.divInt w.n) r)) _
      (fun r _ => procPass2_eq w _ r fuel _ hsize hn hfuel), Option.some_bind]
  simp only [List.map_map, Function.comp_def]
  refine congrArg _ (funext fun sum2 => ?_)
  rw [onRanks_map (procPass3 fuel) _
      (fun r => (procAt w r (sqAfter w (sum1.divInt w.n) r (w.sqmem r)),
        localMin w r, localMax w r)) _
      (fun r _ => procPass3_eq w r fuel _ hsize hn hfuel), Option.some_bind]
  simp only [List.map_map, Function.comp_def]

theorem foldl_add_fin (f : Nat → ℚ) :
    ∀ (l : List Nat) (a : ℚ),
      (l.map (fun r => Dbl.fin (f r))).foldl Dbl.add (Dbl.fin a)
        = Dbl.fin (a + (l.map f).sum) := by
  intro l
  induction l with
  | nil => intro a; simp
  | cons r l ih => intro a; simp [Dbl.add, ih, add_assoc]

theorem reduce_sum_range (f : Nat → ℚ) (size : Nat) (hsize : 0 < size) :
    mpiReduce Dbl.add ((List.range size).map (fun r => Dbl.fin (f r)))
      = some (Dbl.fin (((List.range size).map f).sum)) := by
  have hne : List.range size ≠ [] := by
    intro h
    have := congrArg List.length h
    simp at this
    omega
  revert hne
  generalize List.range size = l
  intro hne
  cases l with
  | nil => exact absurd rfl hne
  | cons r l =>
    simp only [List.map_cons, mpiReduce, List.sum_cons]
    rw [foldl_add_fin f l (f r)]

theorem sum_over_ranks (f : Nat → ℚ) (size n : Nat) (hsize : 0 < size) :
    ((List.range size).map (fun r => ((owned r size n).map f).sum)).sum
      = ((List.range n).map f).sum := by
  have h := (owned_flatten_perm size n hsize).map f
  rw [← h.sum_eq, List.map_flatten, List.sum_flatten, List.map_map, List.map_map]
  rfl

theorem list_sum_range (f : Nat → ℚ) (n : Nat) :
    ((List.range n).map f).sum = ∑ i ∈ Finset.range n, f i := by
  induction n with
  | zero => simp
  | succ k ih => rw [List.range_succ, List.map_append, List.sum_append, ih,
      Finset.sum_range_succ]; simp

theorem seqSum_eq (x : Nat → ℚ) (n : Nat) : seqSum x n = ((List.range n).map x).sum := by
  unfold seqSum
  induction n with
  | zero => simp
  | succ k ih => rw [List.range_succ, List.foldl_append, ih, List.map_append,
      List.sum_append]; simp

theorem foldl_min_spec :
    ∀ (l : List ℚ) (m0 : ℚ),
      l.foldl min m0 ≤ m0 ∧ (∀ v ∈ l, l.foldl min m0 ≤ v) ∧
        (l.foldl min m0 = m0 ∨ l.foldl min m0 ∈ l) := by
  intro l
  induction l with
  | nil => intro m0; simp
  | cons a l ih =>
    intro m0
    obtain ⟨h1, h2, h3⟩ := ih (min m0 a)
    rw [List.foldl_cons]
    refine ⟨le_trans h1 (min_le_left _ _), ?_, ?_⟩
    · intro v hv
      rcases List.mem_cons.1 hv with rfl | hv
      · exact le_trans h1 (min_le_right _ _)
      · exact h2 v hv
    · rcases h3 with h3 | h3
      · rcases min_choice m0 a with hc | hc
        · left; rw [h3, hc]
        · right; rw [h3, hc]; exact List.mem_cons_self _ _
      · right; exact List.mem_cons_of_mem _ h3

theorem foldl_max_spec :
    ∀ (l : List ℚ) (m0 : ℚ),
      m0 ≤ l.foldl max m0 ∧ (∀ v ∈ l, v ≤ l.foldl max m0) ∧
        (l.foldl max m0 = m0 ∨ l.foldl max m0 ∈ l) := by
  intro l
  induction l with
  | nil => intro m0; simp
  | cons a l ih =>
    intro m0
    obtain ⟨h1, h2, h3⟩ := ih (max m0 a)
    rw [List.foldl_cons]
    refine ⟨le_trans (le_max_left _ _) h1, ?_, ?_⟩
    · intro v hv
      rcases List.mem_cons.1 hv with rfl | hv
      · exact le_trans (le_max_right _ _) h1
      · exact h2 v hv
    · rcases h3 with h3 | h3
      · rcases max_choice m0 a with hc | hc
        · left; rw [h3, hc]
        · right; rw [h3, hc]; exact List.mem_cons_self _ _
      · right; exact List.mem_cons_of_mem _ h3

theorem reduce_min_spec (l : List ℚ) (hl : l ≠ []) :
    ∃ m, mpiReduce min l = some m ∧ m ∈ l ∧ ∀ v ∈ l, m ≤ v := by
  cases l with
  | nil => exact absurd rfl hl
  | cons a l =>
    obtain ⟨h1, h2, h3⟩ := foldl_min_spec l a
    refine ⟨l.foldl min a, rfl, ?_, ?_⟩
    · rcases h3 with h3 | h3
      · rw [h3]; exact List.mem_cons_self _ _
      · exact List.mem_cons_of_mem _ h3
    · intro v hv
      rcases List.mem_cons.1 hv with rfl | hv
      · exact h1
      · exact h2 v hv

theorem reduce_max_spec (l : List ℚ) (hl : l ≠ []) :
    ∃ m, mpiReduce max l = some m ∧ m ∈ l ∧ ∀ v ∈ l, v ≤ m := by
  cases l with
  | nil => exact absurd rfl hl
  | cons a l =>
    obtain ⟨h1, h2, h3⟩ := foldl_max_spec l a
    refine ⟨l.foldl max a, rfl, ?_, ?_⟩
    · rcases h3 with h3 | h3
      · rw [h3]; exact List.mem_cons_self _ _
      · exact List.mem_cons_of_mem _ h3
    · intro v hv
      rcases List.mem_cons.1 hv with rfl | hv
      · exact h1
      · exact h2 v hv

theorem localMin_spec (w : Run) (rank : Nat) :
    localMin w rank ≤ seedOf w rank ∧
      (∀ k ∈ owned rank w.size w.n, localMin w rank ≤ |w.xmem 0 k|) ∧
      (localMin w rank = seedOf w rank ∨
        ∃ k ∈ owned rank w.size w.n, localMin w rank = |w.xmem 0 k|) := by
  have e : localMin w rank
      = ((owned rank w.size w.n).map (fun k => |w.xmem 0 k|)).foldl min (seedOf w rank) := by
    unfold localMin
    rw [List.foldl_map]
  obtain ⟨h1, h2, h3⟩ :=
    foldl_min_spec ((owned rank w.size w.n).map (fun k => |w.xmem 0 k|)) (seedOf w rank)
  rw [← e] at h1 h2 h3
  refine ⟨h1, fun k hk => h2 _ (List.mem_map.2 ⟨k, hk, rfl⟩), ?_⟩
  rcases h3 with h3 | h3
  · exact Or.inl h3
  · obtain ⟨k, hk, hk'⟩ := List.mem_map.1 h3
    exact Or.inr ⟨k, hk, hk'.symm⟩

theorem localMax_spec (w : Run) (rank : Nat) :
    seedOf w rank ≤ localMax w rank ∧
      (∀ k ∈ owned rank w.size w.n, |w.xmem 0 k| ≤ localMax w rank) ∧
      (localMax w rank = seedOf w rank ∨
        ∃ k ∈ owned rank w.size w.n, localMax w rank = |w.xmem 0 k|) := by
  have e : localMax w rank
      = ((owned rank w.size w.n).map (fun k => |w.xmem 0 k|)).foldl max (seedOf w rank) := by
    unfold localMax
    rw [List.foldl_map]
  obtain ⟨h1, h2, h3⟩ :=
    foldl_max_spec ((owned rank w.size w.n).map (fun k => |w.xmem 0 k|)) (seedOf w rank)
  rw [← e] at h1 h2 h3
  refine ⟨h1, fun k hk => h2 _ (List.mem_map.2 ⟨k, hk, rfl⟩), ?_⟩
  rcases h3 with h3 | h3
  · exact Or.inl h3
  · obtain ⟨k, hk, hk'⟩ := List.mem_map.1 h3
    exact Or.inr ⟨k, hk, hk'.symm⟩

theorem range_map_ne_nil {β : Type} (f : Nat → β) (size : Nat) (hsize : 0 < size) :
    (List.range size).map f ≠ [] := by
  intro h
  have := congrArg List.length h
  simp at this
  omega

theorem seedOf_pos (w : Run) (rank : Nat) (h1 : 1 ≤ w.n) (hn : w.n ≤ w.totalNum) :
    seedOf w rank = |w.xmem 0 0| := by
  have ht : w.totalNum > 0 := by omega
  have h0 : 0 < w.n := by omega
  simp [seedOf, xOf, ht, h0]

theorem global_min_spec (w : Run) (hsize : 0 < w.size) (h1 : 1 ≤ w.n)
    (hn : w.n ≤ w.totalNum) :
    ∃ m, mpiReduce min ((List.range w.size).map (localMin w)) = some m ∧
      (∀ i, i < w.n → m ≤ |w.xmem 0 i|) ∧ ∃ i, i < w.n ∧ m = |w.xmem 0 i| := by
  obtain ⟨m, hm, hmem, hle⟩ := reduce_min_spec _ (range_map_ne_nil (localMin w) w.size hsize)
  refine ⟨m, hm, ?_, ?_⟩
  · intro i hi
    have hr : i % w.size < w.size := Nat.mod_lt i hsize
    have h2 := hle (localMin w (i % w.size)) (List.mem_map.2 ⟨_, List.mem_range.2 hr, rfl⟩)
    exact le_trans h2 ((localMin_spec w (i % w.size)).2.1 i
      ((mem_owned_mod _ w.size w.n i hr).2 ⟨hi, rfl⟩))
  · obtain ⟨r, _, hr⟩ := List.mem_map.1 hmem
    rcases (localMin_spec w r).2.2 with h | ⟨k, hk, h⟩
    · exact ⟨0, by omega, by rw [← hr, h, seedOf_pos w r h1 hn]⟩
    · exact ⟨k, owned_lt r w.size w.n k hsize hk, by rw [← hr, h]⟩

theorem global_max_spec (w : Run) (hsize : 0 < w.size) (h1 : 1 ≤ w.n)
    (hn : w.n ≤ w.totalNum) :
    ∃ m, mpiReduce max ((List.range w.size).map (localMax w)) = some m ∧
      (∀ i, i < w.n → |w.xmem 0 i| ≤ m) ∧ ∃ i, i < w.n ∧ m = |w.xmem 0 i| := by
  obtain ⟨m, hm, hmem, hle⟩ := reduce_max_spec _ (range_map_ne_nil (localMax w) w.size hsize)
  refine ⟨m, hm, ?_, ?_⟩
  · intro i hi
    have hr : i % w.size < w.size := Nat.mod_lt i hsize
    have h2 := hle (localMax w (i % w.size)) (List.mem_map.2 ⟨_, List.mem_range.2 hr, rfl⟩)
    exact le_trans ((localMax_spec w (i % w.size)).2.1 i
      ((mem_owned_mod _ w.size w.n i hr).2 ⟨hi, rfl⟩)) h2
  · obtain ⟨r, _, hr⟩ := List.mem_map.1 hmem
    rcases (localMax_spec w r).2.2 with h | ⟨k, hk, h⟩
    · exact ⟨0, by omega, by rw [← hr, h, seedOf_pos w r h1 hn]⟩
    · exact ⟨k, owned_lt r w.size w.n k hsize hk, by rw [← hr, h]⟩

theorem foldl_sqDev_fin (x : Nat → ℚ) (m : ℚ) :
    ∀ (l : List Nat) (a : ℚ),
      l.foldl (fun acc k => acc.add (sqDev (Dbl.fin m) (x k))) (Dbl.fin a)
        = Dbl.fin (a + (l.map (fun k => (x k - m) ^ 2)).sum) := by
  intro l
  induction l with
  | nil => intro a; simp
  | cons k l ih =>
    intro a
    rw [List.foldl_cons]
    have : (Dbl.fin a).add (sqDev (Dbl.fin m) (x k)) = Dbl.fin (a + (x k - m) ^ 2) := by
      simp [sqDev, Dbl.add, Dbl.sub, Dbl.mul, pow_two]
    rw [this, ih, List.map_cons, List.sum_cons, add_assoc]

theorem localSqDev_fin (w : Run) (m : ℚ) (rank : Nat) :
    localSqDev w (Dbl.fin m) rank
      = Dbl.fin (((owned rank w.size w.n).map (fun k => (w.xmem 0 k - m) ^ 2)).sum) := by
  unfold localSqDev
  rw [foldl_sqDev_fin, zero_add]

theorem total_sum (w : Run) (hsize : 0 < w.size) :
    mpiReduce Dbl.add ((List.range w.size).map (fun r => Dbl.fin (localSum w r)))
      = some (Dbl.fin (∑ i ∈ Finset.range w.n, w.xmem 0 i)) := by
  rw [reduce_sum_range (localSum w) w.size hsize]
  unfold localSum
  rw [sum_over_ranks (w.xmem 0) w.size w.n hsize, list_sum_range]

theorem total_sqDev (w : Run) (m : ℚ) (hsize : 0 < w.size) :
    mpiReduce Dbl.add ((List.range w.size).map (localSqDev w (Dbl.fin m)))
      = some (Dbl.fin (∑ i ∈ Finset.range w.n, (w.xmem 0 i - m) ^ 2)) := by
  have e : (List.range w.size).map (localSqDev w (Dbl.fin m))
      = (List.range w.size).map (fun r => Dbl.fin
          (((owned r w.size w.n).map (fun k => (w.xmem 0 k - m) ^ 2)).sum)) :=
    List.map_congr_left (fun r _ => localSqDev_fin w m r)
  rw [e, reduce_sum_range _ w.size hsize,
    sum_over_ranks (fun k => (w.xmem 0 k - m) ^ 2) w.size w.n hsize, list_sum_range]

/-- The run on a non-empty data set: every value rank 0 ends with. -/
theorem main_pos (w : Run) (fuel : Nat) (hsize : 1 ≤ w.size) (h1 : 1 ≤ w.n)
    (hn : w.n ≤ w.totalNum) (hfuel : w.n ≤ fuel) :
    ∃ gmin gmax : ℚ,
      main fuel w = some
        { sum1 := Dbl.fin (∑ i ∈ Finset.range w.n, w.xmem 0 i)
          mean := Dbl.fin ((∑ i ∈ Finset.range w.n, w.xmem 0 i) / (w.n : ℚ))
          sum2 := Dbl.fin (∑ i ∈ Finset.range w.n,
            (w.xmem 0 i - (∑ j ∈ Finset.range w.n, w.xmem 0 j) / (w.n : ℚ)) ^ 2)
          variance := Dbl.fin ((∑ i ∈ Finset.range w.n,
            (w.xmem 0 i - (∑ j ∈ Finset.range w.n, w.xmem 0 j) / (w.n : ℚ)) ^ 2) / (w.n : ℚ))
          global_minabs := gmin
          global_maxabs := gmax
          divisions := [(Dbl.fin (∑ i ∈ Finset.range w.n, w.xmem 0 i), w.n),
            (Dbl.fin (∑ i ∈ Finset.range w.n,
              (w.xmem 0 i - (∑ j ∈ Finset.range w.n, w.xmem 0 j) / (w.n : ℚ)) ^ 2), w.n)]
          printed :=
            { minAbs := gmin, maxAbs := gmax,
              mean := Dbl.fin ((∑ i ∈ Finset.range w.n,
                (w.xmem 0 i - (∑ j ∈ Finset.range w.n, w.xmem 0 j) / (w.n : ℚ)) ^ 2)
                  / (w.n : ℚ)),
              variance := Dbl.fin ((∑ i ∈ Finset.range w.n,
                (w.xmem 0 i - (∑ j ∈ Finset.range w.n, w.xmem 0 j) / (w.n : ℚ)) ^ 2)
                  / (w.n : ℚ)) } } ∧
      (∀ i, i < w.n → gmin ≤ |w.xmem 0 i|) ∧ (∃ i, i < w.n ∧ gmin = |w.xmem 0 i|) ∧
      (∀ i, i < w.n → |w.xmem 0 i| ≤ gmax) ∧ (∃ i, i < w.n ∧ gmax = |w.xmem 0 i|) := by
  obtain ⟨gmin, hmin, hmin1, hmin2⟩ := global_min_spec w hsize h1 hn
  obtain ⟨gmax, hmax, hmax1, hmax2⟩ := global_max_spec w hsize h1 hn
  refine ⟨gmin, gmax, ?_, hmin1, hmin2, hmax1, hmax2⟩
  have hn0 : w.n ≠ 0 := by omega
  rw [main_eq w fuel hsize hn hfuel, total_sum w hsize, Option.some_bind]
  have hd : ∀ a : ℚ, (Dbl.fin a).divInt w.n = Dbl.fin (a / (w.n : ℚ)) := by
    intro a
    simp [Dbl.divInt, hn0]
  rw [hd, total_sqDev w _ hsize, Option.some_bind, hmin, Option.some_bind, hmax,
    Option.some_bind, hd]

theorem owned_of_le (rank size n : Nat) (hsize : 0 < size) (h : n ≤ rank) :
    owned rank size n = [] := by
  unfold owned
  rw [count_zero size n rank hsize (by omega)]
  rfl

theorem owned_zero (rank size : Nat) (hsize : 0 < size) : owned rank size 0 = [] :=
  owned_of_le rank size 0 hsize (Nat.zero_le rank)

theorem mpiReduce_range_some {β : Type} (op : β → β → β) (f : Nat → β) (size : Nat)
    (hsize : 0 < size) : ∃ v, mpiReduce op ((List.range size).map f) = some v := by
  have hne := range_map_ne_nil f size hsize
  revert hne
  generalize (List.range size).map f = l
  intro hne
  cases l with
  | nil => exact absurd rfl hne
  | cons a l => exact ⟨_, rfl⟩

/-- The run on an empty data set: every value rank 0 ends with. -/
theorem main_zero (w : Run) (fuel : Nat) (hsize : 1 ≤ w.size) (h0 : w.n = 0) :
    ∃ gmin gmax : ℚ,
      main fuel w = some
        { sum1 := Dbl.fin 0
          mean := Dbl.nan
          sum2 := Dbl.fin 0
          variance := Dbl.nan
          global_minabs := gmin
          global_maxabs := gmax
          divisions := [(Dbl.fin 0, 0), (Dbl.fin 0, 0)]
          printed := { minAbs := gmin, maxAbs := gmax, mean := Dbl.nan, variance := Dbl.nan } } ∧
      mpiReduce min ((List.range w.size).map (seedOf w)) = some gmin ∧
      mpiReduce max ((List.range w.size).map (seedOf w)) = some gmax := by
  obtain ⟨gmin, hmin⟩ := mpiReduce_range_some min (seedOf w) w.size hsize
  obtain ⟨gmax, hmax⟩ := mpiReduce_range_some max (seedOf w) w.size hsize
  refine ⟨gmin, gmax, ?_, hmin, hmax⟩
  have e1 : (List.range w.size).map (localMin w) = (List.range w.size).map (seedOf w) := by
    apply List.map_congr_left
    intro r _
    simp [localMin, h0, owned_zero r w.size hsize]
  have e2 : (List.range w.size).map (localMax w) = (List.range w.size).map (seedOf w) := by
    apply List.map_congr_left
    intro r _
    simp [localMax, h0, owned_zero r w.size hsize]
  have e3 : ∀ mean : Dbl, (List.range w.size).map (localSqDev w mean)
      = (List.range w.size).map (fun r => Dbl.fin ((fun _ => (0 : ℚ)) r)) := by
    intro mean
    apply List.map_congr_left
    intro r _
    simp [localSqDev, h0, owned_zero r w.size hsize]
  have e4 : ((List.range w.size).map (fun _ => (0 : ℚ))).sum = 0 := by simp
  rw [main_eq w fuel hsize (by omega) (by omega), total_sum w hsize, Option.some_bind, e3,
    reduce_sum_range _ w.size hsize, Option.some_bind, e1, e2, hmin, hmax, e4]
  simp [h0, Dbl.divInt]

/-! ## The data sets of the specification -/

theorem sum_dataA : ∑ i ∈ Finset.range 8, dataA i = 40 := by
  simp [Finset.sum_range_succ, dataA]
  norm_num

theorem sqdev_dataA : ∑ i ∈ Finset.range 8, (dataA i - 5) ^ 2 = 32 := by
  simp [Finset.sum_range_succ, dataA]
  norm_num

theorem forLoop_done {σ : Type} (size n : Nat) (body : Nat → σ → Option σ) (fuel i : Nat)
    (s : σ) (h : n ≤ i) : forLoop size n body fuel i s = some s := by
  have hi : ¬ i < n := by omega
  cases fuel <;> simp [forLoop, hi]

/-- The statistics of a run on a non-empty data set, field by field. -/
theorem main_stats (w : Run) (fuel : Nat) (hsize : 1 ≤ w.size) (h1 : 1 ≤ w.n)
    (hn : w.n ≤ w.totalNum) (hfuel : w.n ≤ fuel) :
    ∃ o : Outcome, main fuel w = some o ∧
      o.sum1 = Dbl.fin (∑ i ∈ Finset.range w.n, w.xmem 0 i) ∧
      o.mean = Dbl.fin ((∑ i ∈ Finset.range w.n, w.xmem 0 i) / (w.n : ℚ)) ∧
      o.sum2 = Dbl.fin (∑ i ∈ Finset.range w.n,
        (w.xmem 0 i - (∑ j ∈ Finset.range w.n, w.xmem 0 j) / (w.n : ℚ)) ^ 2) ∧
      o.variance = Dbl.fin ((∑ i ∈ Finset.range w.n,
        (w.xmem 0 i - (∑ j ∈ Finset.range w.n, w.xmem 0 j) / (w.n : ℚ)) ^ 2) / (w.n : ℚ)) ∧
      (∀ i, i < w.n → o.global_minabs ≤ |w.xmem 0 i|) ∧
      (∃ i, i < w.n ∧ o.global_minabs = |w.xmem 0 i|) ∧
      (∀ i, i < w.n → |w.xmem 0 i| ≤ o.global_maxabs) ∧
      (∃ i, i < w.n ∧ o.global_maxabs = |w.xmem 0 i|) ∧
      o.printed = { minAbs := o.global_minabs, maxAbs := o.global_maxabs,
                    mean := o.variance, variance := o.variance } := by
  obtain ⟨gmin, gmax, hmain, h2, h3, h4, h5⟩ := main_pos w fuel hsize h1 hn hfuel
  exact ⟨_, hmain, rfl, rfl, rfl, rfl, h2, h3, h4, h5, rfl⟩

/-- The mean and the variance of a run whose data are `dataA`. -/
theorem stats_dataA (w : Run) (hn8 : w.n = 8) (hx : ∀ i, i < 8 → w.xmem 0 i = dataA i) :
    (∑ i ∈ Finset.range w.n, w.xmem 0 i) / (w.n : ℚ) = 5 ∧
    (∑ i ∈ Finset.range w.n,
      (w.xmem 0 i - (∑ j ∈ Finset.range w.n, w.xmem 0 j) / (w.n : ℚ)) ^ 2) / (w.n : ℚ) = 4 := by
  have hS : ∑ i ∈ Finset.range w.n, w.xmem 0 i = 40 := by
    rw [hn8, Finset.sum_congr rfl (fun i hi => hx i (Finset.mem_range.1 hi))]
    exact sum_dataA
  have hm : (∑ i ∈ Finset.range w.n, w.xmem 0 i) / (w.n : ℚ) = 5 := by
    rw [hS, hn8]
    norm_num
  have hV : ∑ i ∈ Finset.range w.n, (w.xmem 0 i - 5) ^ 2 = 32 := by
    rw [hn8, Finset.sum_congr rfl
      (fun i hi => by rw [hx i (Finset.mem_range.1 hi)])]
    exact sqdev_dataA
  refine ⟨hm, ?_⟩
  rw [hm, hV, hn8]
  norm_num

/-! ## The `int` counter and the arithmetic -/

theorem forLoopInt_eq_forLoop {σ : Type} (size n : Nat) (body : Nat → σ → Option σ)
    (hint : n + size ≤ INT_MAX + 1) :
    ∀ (fuel i : Nat) (s : σ),
      forLoopInt size n body fuel i s = forLoop size n body fuel i s := by
  intro fuel
  induction fuel with
  | zero => intro i s; rfl
  | succ k ih =>
    intro i s
    by_cases hi : i < n
    · have hle : i + size ≤ INT_MAX := by omega
      simp only [forLoopInt, forLoop, hi, if_true, hle, ih]
    · simp [forLoopInt, forLoop, hi]

/-- Past the bound the `int` counter overflows: with `n = size = INT_MAX` the loop
of rank 1 visits index 1 and then gives no result. -/
theorem forLoopInt_overflow : visitedInt 1 INT_MAX INT_MAX 2 = none := by
  decide

theorem forLoopInt_inv {σ : Type} (Q : σ → Prop) (size n : Nat) (body : Nat → σ → Option σ)
    (hbody : ∀ i s s', body i s = some s' → Q s → Q s') :
    ∀ (fuel i : Nat) (s s' : σ), forLoopInt size n body fuel i s = some s' → Q s → Q s' := by
  intro fuel
  induction fuel with
  | zero =>
    intro i s s' h hq
    by_cases hi : i < n
    · simp [forLoopInt, hi] at h
    · simp [forLoopInt, hi] at h
      rw [← h]
      exact hq
  | succ k ih =>
    intro i s s' h hq
    by_cases hi : i < n
    · simp only [forLoopInt, hi, if_true] at h
      obtain ⟨t, ht, ht'⟩ := Option.bind_eq_some.1 h
      by_cases hle : i + size ≤ INT_MAX
      · rw [if_pos hle] at ht'
        exact ih (i + size) t s' ht' (hbody i s t ht hq)
      · rw [if_neg hle] at ht'
        exact absurd ht' (by simp)
    · simp [forLoopInt, hi] at h
      rw [← h]
      exact hq

theorem forLoopInt_done {σ : Type} (size n : Nat) (body : Nat → σ → Option σ) (fuel i : Nat)
    (s : σ) (h : n ≤ i) : forLoopInt size n body fuel i s = some s := by
  have hi : ¬ i < n := by omega
  cases fuel <;> simp [forLoopInt, hi]

theorem visitedInt_eq_owned (rank size n fuel : Nat) (hsize : 0 < size)
    (hint : n + size ≤ INT_MAX + 1) (hfuel : n ≤ fuel) :
    visitedInt rank size n fuel = some (owned rank size n) := by
  unfold visitedInt
  rw [forLoopInt_eq_forLoop size n _ hint]
  exact visited_eq_owned rank size n fuel hsize hfuel

theorem sum_foldA (A : Arith) (p : Proc) :
    ∀ (l : List Nat) (acc : Dbl), (∀ i ∈ l, i < p.x.len) →
      l.foldlM (fun t k => sumBodyA A k t) (p, acc)
        = some (p, l.foldl (fun a k => A.add a (Dbl.fin (p.x.cell k))) acc) := by
  intro l
  induction l with
  | nil => intro acc _; simp
  | cons i l ih =>
    intro acc h
    have hi : i < p.x.len := h i (List.mem_cons_self i l)
    have ht := ih (A.add acc (Dbl.fin (p.x.cell i)))
      (fun k hk => h k (List.mem_cons_of_mem i hk))
    have hstep : sumBodyA A i (p, acc) = some (p, A.add acc (Dbl.fin (p.x.cell i))) := by
      simp [sumBodyA, Buf.get, hi]
    rw [foldlM_cons_some _ _ _ i l hstep, ht, List.foldl_cons]

theorem sqDiff_foldA (A : Arith) (mean : Dbl) (rank size totalNum n : Nat) (x : Buf ℚ)
    (len : Nat) :
    ∀ (l : List Nat) (cell : Nat → Dbl), (∀ i ∈ l, i < x.len ∧ i < len) →
      l.foldlM (fun t k => sqDiffBodyA A mean k t)
          { rank := rank, size := size, totalNum := totalNum, n := n, x := x,
            squaredDiffs := { len := len, cell := cell } }
        = some { rank := rank, size := size, totalNum := totalNum, n := n, x := x,
                 squaredDiffs :=
                  { len := len,
                    cell := fun k => if k ∈ l then sqDevA A mean (x.cell k) else cell k } } := by
  intro l
  induction l with
  | nil => intro cell _; simp
  | cons i l ih =>
    intro cell h
    have hi := h i (List.mem_cons_self i l)
    have ht := ih (Function.update cell i (sqDevA A mean (x.cell i)))
      (fun k hk => h k (List.mem_cons_of_mem i hk))
    have hstep : sqDiffBodyA A mean i
        { rank := rank, size := size, totalNum := totalNum, n := n, x := x,
          squaredDiffs := { len := len, cell := cell } }
        = some { rank := rank, size := size, totalNum := totalNum, n := n, x := x,
                 squaredDiffs :=
                  { len := len, cell := Function.update cell i (sqDevA A mean (x.cell i)) } } := by
      simp [sqDiffBodyA, Buf.get, Buf.set, hi.1, hi.2, sqDevA]
    rw [foldlM_cons_some _ _ _ i l hstep, ht]
    congr 3
    funext k
    by_cases hki : k = i
    · subst hki; simp
    · simp [hki, Function.update_noteq hki]

theorem sqSum_foldA (A : Arith) (p : Proc) :
    ∀ (l : List Nat) (acc : Dbl), (∀ i ∈ l, i < p.squaredDiffs.len) →
      l.foldlM (fun t k => sqSumBodyA A k t) (p, acc)
        = some (p, l.foldl (fun a k => A.add a (p.squaredDiffs.cell k)) acc) := by
  intro l
  induction l with
  | nil => intro acc _; simp
  | cons i l ih =>
    intro acc h
    have hi := h i (List.mem_cons_self i l)
    have ht := ih (A.add acc (p.squaredDiffs.cell i))
      (fun k hk => h k (List.mem_cons_of_mem i hk))
    have hstep : sqSumBodyA A i (p, acc) = some (p, A.add acc (p.squaredDiffs.cell i)) := by
      simp [sqSumBodyA, Buf.get, hi]
    rw [foldlM_cons_some _ _ _ i l hstep, ht, List.foldl_cons]

theorem procPass1A_eq (A : Arith) (w : Run) (rank fuel : Nat) (sq : Nat → Dbl)
    (hsize : 0 < w.size) (hint : w.n + w.size ≤ INT_MAX + 1) (hn : w.n ≤ w.totalNum)
    (hfuel : w.n ≤ fuel) :
    procPass1A A fuel (procAt w rank sq) = some (procAt w rank sq, localSumA A w rank) := by
  unfold procPass1A
  have e1 : (procAt w rank sq).size = w.size := rfl
  have e2 : (procAt w rank sq).n = w.n := rfl
  have e3 : (procAt w rank sq).rank = rank := rfl
  rw [e1, e2, e3, forLoopInt_eq_forLoop w.size w.n _ hint,
    forLoop_eq_foldlM w.size w.n _ hsize fuel rank _ (by omega),
    strideFrom_eq_owned w.size w.n hsize fuel rank (by omega),
    sum_foldA A (procAt w rank sq) (owned rank w.size w.n) (Dbl.fin 0)
      (fun i hi => lt_of_lt_of_le (owned_lt rank w.size w.n i hsize hi) hn)]
  congr 2
  unfold localSumA
  apply List.foldl_ext
  intro a k hk
  simp [procAt, xOf, owned_lt rank w.size w.n k hsize hk]

theorem procPass2A_eq (A : Arith) (w : Run) (mean : Dbl) (rank fuel : Nat) (sq : Nat → Dbl)
    (hsize : 0 < w.size) (hint : w.n + w.size ≤ INT_MAX + 1) (hn : w.n ≤ w.totalNum)
    (hfuel : w.n ≤ fuel) :
    procPass2A A fuel mean (procAt w rank sq)
      = some (procAt w rank (sqAfterA A w mean rank sq), localSqDevA A w mean rank) := by
  unfold procPass2A
  have e1 : (procAt w rank sq).size = w.size := rfl
  have e2 : (procAt w rank sq).n = w.n := rfl
  have e3 : (procAt w rank sq).rank = rank := rfl
  have hx : ∀ i ∈ owned rank w.size w.n, (xOf w rank).cell i = w.xmem 0 i := by
    intro i hi
    simp [xOf, owned_lt rank w.size w.n i hsize hi]
  have hcell : (fun k => if k ∈ owned rank w.size w.n then sqDevA A mean ((xOf w rank).cell k)
      else sq k) = sqAfterA A w mean rank sq := by
    funext k
    by_cases hk : k ∈ owned rank w.size w.n
    · simp [sqAfterA, hk, hx k hk]
    · simp [sqAfterA, hk]
  rw [e1, e2, e3, forLoopInt_eq_forLoop w.size w.n _ hint,
    forLoop_eq_foldlM w.size w.n _ hsize fuel rank _ (by omega),
    strideFrom_eq_owned w.size w.n hsize fuel rank (by omega)]
  have h1 := sqDiff_foldA A mean rank w.size w.totalNum w.n (xOf w rank) w.n
    (owned rank w.size w.n) sq
    (fun i hi => ⟨lt_of_lt_of_le (owned_lt rank w.size w.n i hsize hi) hn,
      owned_lt rank w.size w.n i hsize hi⟩)
  rw [hcell] at h1
  have h1' : List.foldlM (fun t k => sqDiffBodyA A mean k t) (procAt w rank sq)
      (owned rank w.size w.n) = some (procAt w rank (sqAfterA A w mean rank sq)) := h1
  rw [h1', Option.some_bind]
  have e1' : (procAt w rank (sqAfterA A w mean rank sq)).size = w.size := rfl
  have e2' : (procAt w rank (sqAfterA A w mean rank sq)).n = w.n := rfl
  have e3' : (procAt w rank (sqAfterA A w mean rank sq)).rank = rank := rfl
  rw [e1', e2', e3', forLoopInt_eq_forLoop w.size w.n _ hint,
    forLoop_eq_foldlM w.size w.n _ hsize fuel rank _ (by omega),
    strideFrom_eq_owned w.size w.n hsize fuel rank (by omega),
    sqSum_foldA A _ (owned rank w.size w.n) (Dbl.fin 0)
      (fun i hi => owned_lt rank w.size w.n i hsize hi)]
  congr 2
  unfold localSqDevA
  apply List.foldl_ext
  intro a k hk
  simp [procAt, sqAfterA, hk]

theorem procPass3A_eq (w : Run) (rank fuel : Nat) (sq : Nat → Dbl) (hsize : 0 < w.size)
    (hint : w.n + w.size ≤ INT_MAX + 1) (hn : w.n ≤ w.totalNum) (hfuel : w.n ≤ fuel) :
    procPass3A fuel (procAt w rank sq)
      = some (procAt w rank sq, localMin w rank, localMax w rank) := by
  have h := procPass3_eq w rank fuel sq hsize hn hfuel
  unfold procPass3 at h
  unfold procPass3A
  have e : ∀ seed, forLoopInt (procAt w rank sq).size (procAt w rank sq).n absBody fuel
      (procAt w rank sq).rank (procAt w rank sq, seed)
      = forLoop (procAt w rank sq).size (procAt w rank sq).n absBody fuel
      (procAt w rank sq).rank (procAt w rank sq, seed) :=
    fun seed => forLoopInt_eq_forLoop _ _ _ hint fuel _ _
  simp only [e]
  exact h

theorem mainA_eq (A : Arith) (w : Run) (fuel : Nat) (hsize : 0 < w.size)
    (hint : w.n + w.size ≤ INT_MAX + 1) (hn : w.n ≤ w.totalNum) (hfuel : w.n ≤ fuel) :
    mainA A fuel w =
      (mpiReduce A.add ((List.range w.size).map (localSumA A w))).bind (fun sum1 =>
      (mpiReduce A.add
          ((List.range w.size).map (localSqDevA A w (A.divInt sum1 w.n)))).bind (fun sum2 =>
      (mpiReduce min ((List.range w.size).map (localMin w))).bind (fun gmin =>
      (mpiReduce max ((List.range w.size).map (localMax w))).bind (fun gmax =>
        some
          { sum1 := sum1
            mean := A.divInt sum1 w.n
            sum2 := sum2
            variance := A.divInt sum2 w.n
            global_minabs := gmin
            global_maxabs := gmax
            divisions := [(sum1, w.n), (sum2, w.n)]
            printed :=
              { minAbs := gmin, maxAbs := gmax, mean := A.divInt sum2 w.n,
                variance := A.divInt sum2 w.n } })))) := by
  unfold mainA
  rw [onRanks_range (procInit w) (fun r => procAt w r (w.sqmem r)) w.size
      (fun r _ => procInit_eq w r hn), Option.some_bind,
    onRanks_map (procPass1A A fuel) _
      (fun r => (procAt w r (w.sqmem r), localSumA A w r)) _
      (fun r _ => procPass1A_eq A w r fuel _ hsize hint hn hfuel), Option.some_bind]
  simp only [List.map_map, Function.comp_def]
  refine congrArg _ (funext fun sum1 => ?_)
  rw [onRanks_map (procPass2A A fuel (A.divInt sum1 w.n)) _
      (fun r => (procAt w r (sqAfterA A w (A.divInt sum1 w.n) r (w.sqmem r)),
        localSqDevA A w (A.divInt sum1 w.n) r)) _
      (fun r _ => procPass2A_eq A w _ r fuel _ hsize hint hn hfuel), Option.some_bind]
  simp only [List.map_map, Function.comp_def]
  refine congrArg _ (funext fun sum2 => ?_)
  rw [onRanks_map (procPass3A fuel) _
      (fun r => (procAt w r (sqAfterA A w (A.divInt sum1 w.n) r (w.sqmem r)),
        localMin w r, localMax w r)) _
      (fun r _ => procPass3A_eq w r fuel _ hsize hint hn hfuel), Option.some_bind]
  simp only [List.map_map, Function.comp_def]

theorem localSumA_exact (w : Run) (rank : Nat) :
    localSumA exact w rank = Dbl.fin (localSum w rank) := by
  unfold localSumA localSum
  have key : ∀ (l : List Nat) (a : ℚ),
      l.foldl (fun acc k => exact.add acc (Dbl.fin (w.xmem 0 k))) (Dbl.fin a)
        = Dbl.fin (a + (l.map (w.xmem 0)).sum) := by
    intro l
    induction l with
    | nil => intro a; simp
    | cons k l ih =>
      intro a
      rw [List.foldl_cons]
      have : exact.add (Dbl.fin a) (Dbl.fin (w.xmem 0 k)) = Dbl.fin (a + w.xmem 0 k) := rfl
      rw [this, ih, List.map_cons, List.sum_cons, add_assoc]
  rw [key, zero_add]

theorem localSqDevA_exact (w : Run) (mean : Dbl) (rank : Nat) :
    localSqDevA exact w mean rank = localSqDev w mean rank := rfl

theorem sqAfterA_exact (w : Run) (mean : Dbl) (rank : Nat) (sq : Nat → Dbl) :
    sqAfterA exact w mean rank sq = sqAfter w mean rank sq := rfl

/-- Within the bound of the `int` counter, the run in exact arithmetic is the
run over the natural numbers. -/
theorem mainA_exact_eq_main (w : Run) (fuel : Nat) (hsize : 0 < w.size)
    (hint : w.n + w.size ≤ INT_MAX + 1) (hn : w.n ≤ w.totalNum) (hfuel : w.n ≤ fuel) :
    mainA exact fuel w = main fuel w := by
  rw [mainA_eq exact w fuel hsize hint hn hfuel, main_eq w fuel hsize hn hfuel]
  have e : (List.range w.size).map (localSumA exact w)
      = (List.range w.size).map (fun r => Dbl.fin (localSum w r)) :=
    List.map_congr_left (fun r _ => localSumA_exact w r)
  rw [e]
  rfl

theorem procPass1A_exact (w : Run) (rank fuel : Nat) (sq : Nat → Dbl) (hsize : 0 < w.size)
    (hint : w.n + w.size ≤ INT_MAX + 1) (hn : w.n ≤ w.totalNum) (hfuel : w.n ≤ fuel) :
    procPass1A exact fuel (procAt w rank sq) = procPass1 fuel (procAt w rank sq) := by
  rw [procPass1A_eq exact w rank fuel sq hsize hint hn hfuel,
    procPass1_eq w rank fuel sq hsize hn hfuel, localSumA_exact]

theorem procPass2A_exact (w : Run) (mean : Dbl) (rank fuel : Nat) (sq : Nat → Dbl)
    (hsize : 0 < w.size) (hint : w.n + w.size ≤ INT_MAX + 1) (hn : w.n ≤ w.totalNum)
    (hfuel : w.n ≤ fuel) :
    procPass2A exact fuel mean (procAt w rank sq) = procPass2 fuel mean (procAt w rank sq) := by
  rw [procPass2A_eq exact w mean rank fuel sq hsize hint hn hfuel,
    procPass2_eq w mean rank fuel sq hsize hn hfuel]
  rfl

/-- The run with the `int` counter returns a result in every arithmetic, and
its minimum and maximum are those of the third pass. -/
theorem mainA_some (A : Arith) (w : Run) (fuel : Nat) (hsize : 1 ≤ w.size)
    (hint : w.n + w.size ≤ INT_MAX + 1) (hn : w.n ≤ w.totalNum) (hfuel : w.n ≤ fuel) :
    ∃ o : Outcome, mainA A fuel w = some o ∧
      mpiReduce min ((List.range w.size).map (localMin w)) = some o.global_minabs ∧
      mpiReduce max ((List.range w.size).map (localMax w)) = some o.global_maxabs ∧
      o.printed.minAbs = o.global_minabs ∧ o.printed.maxAbs = o.global_maxabs ∧
      o.printed.variance = o.variance := by
  obtain ⟨s1, h1⟩ := mpiReduce_range_some A.add (localSumA A w) w.size hsize
  obtain ⟨s2, h2⟩ :=
    mpiReduce_range_some A.add (localSqDevA A w (A.divInt s1 w.n)) w.size hsize
  obtain ⟨gmin, h3⟩ := mpiReduce_range_some min (localMin w) w.size hsize
  obtain ⟨gmax, h4⟩ := mpiReduce_range_some max (localMax w) w.size hsize
  rw [mainA_eq A w fuel hsize hint hn hfuel, h1, Option.some_bind, h2, Option.some_bind, h3,
    Option.some_bind, h4, Option.some_bind]
  exact ⟨_, rfl, rfl, rfl, rfl, rfl, rfl⟩

theorem procPass1A_frame (A : Arith) (fuel : Nat) (q : Proc) (r : Proc × Dbl)
    (h : procPass1A A fuel q = some r) : r.1 = q := by
  refine forLoopInt_inv (fun st : Proc × Dbl => st.1 = q) q.size q.n (sumBodyA A) ?_ fuel
    q.rank (q, Dbl.fin 0) r h rfl
  intro i s s' hs hq
  unfold sumBodyA at hs
  obtain ⟨xi, _, hxi⟩ := Option.map_eq_some'.1 hs
  rw [← hxi]
  exact hq

theorem procPass2A_frame (A : Arith) (fuel : Nat) (mean : Dbl) (q : Proc) (r : Proc × Dbl)
    (h : procPass2A A fuel mean q = some r) : r.1.x = q.x := by
  unfold procPass2A at h
  obtain ⟨p', h1, h2⟩ := Option.bind_eq_some.1 h
  have e1 : p'.x = q.x := by
    refine forLoopInt_inv (fun st : Proc => st.x = q.x) q.size q.n (sqDiffBodyA A mean) ?_
      fuel q.rank q p' h1 rfl
    intro i s s' hs hq
    unfold sqDiffBodyA at hs
    obtain ⟨xi, _, hxi⟩ := Option.bind_eq_some.1 hs
    obtain ⟨sq, _, hsq⟩ := Option.map_eq_some'.1 hxi
    rw [← hsq]
    exact hq
  refine forLoopInt_inv (fun st : Proc × Dbl => st.1.x = q.x) p'.size p'.n (sqSumBodyA A) ?_
    fuel p'.rank (p', Dbl.fin 0) r h2 e1
  intro i s s' hs hq
  unfold sqSumBodyA at hs
  obtain ⟨v, _, hv⟩ := Option.map_eq_some'.1 hs
  rw [← hv]
  exact hq

theorem procPass3A_frame (fuel : Nat) (q : Proc) (r : Proc × ℚ × ℚ)
    (h : procPass3A fuel q = some r) : r.1 = q := by
  unfold procPass3A at h
  obtain ⟨seed, _, h2⟩ := Option.bind_eq_some.1 h
  refine forLoopInt_inv (fun st : Proc × ℚ × ℚ => st.1 = q) q.size q.n absBody ?_ fuel q.rank
    (q, seed) r h2 rfl
  intro i s s' hs hq
  unfold absBody at hs
  obtain ⟨xi, _, hxi⟩ := Option.map_eq_some'.1 hs
  rw [← hxi]
  exact hq

/-- The minimum and the maximum of a run on a non-empty data set, in every
arithmetic. -/
theorem mainA_minmax (A : Arith) (w : Run) (fuel : Nat) (hsize : 1 ≤ w.size) (h1 : 1 ≤ w.n)
    (hint : w.n + w.size ≤ INT_MAX + 1) (hn : w.n ≤ w.totalNum) (hfuel : w.n ≤ fuel) :
    ∃ o : Outcome, mainA A fuel w = some o ∧
      (∀ i, i < w.n → o.global_minabs ≤ |w.xmem 0 i|) ∧
      (∃ i, i < w.n ∧ o.global_minabs = |w.xmem 0 i|) ∧
      (∀ i, i < w.n → |w.xmem 0 i| ≤ o.global_maxabs) ∧
      (∃ i, i < w.n ∧ o.global_maxabs = |w.xmem 0 i|) ∧
      o.printed.minAbs = o.global_minabs ∧ o.printed.maxAbs = o.global_maxabs ∧
      o.printed.variance = o.variance := by
  obtain ⟨o, ho, hmin, hmax, p1, p2, p3⟩ := mainA_some A w fuel hsize hint hn hfuel
  obtain ⟨m, hm, a1, a2⟩ := global_min_spec w hsize h1 hn
  obtain ⟨M, hM, a3, a4⟩ := global_max_spec w hsize h1 hn
  have e1 : m = o.global_minabs := Option.some.inj (hm.symm.trans hmin)
  have e2 : M = o.global_maxabs := Option.some.inj (hM.symm.trans hmax)
  subst e1 e2
  exact ⟨o, ho, a1, a2, a3, a4, p1, p2, p3⟩

/-- The least and the greatest absolute value of the data set `dataB`. -/
theorem minmax_dataB (w : Run) (gmin gmax : ℚ) (hn4 : w.n = 4)
    (hx : ∀ i, i < 4 → w.xmem 0 i = dataB i)
    (h2 : ∀ i, i < w.n → gmin ≤ |w.xmem 0 i|) (h3 : ∃ i, i < w.n ∧ gmin = |w.xmem 0 i|)
    (h4 : ∀ i, i < w.n → |w.xmem 0 i| ≤ gmax) (h5 : ∃ i, i < w.n ∧ gmax = |w.xmem 0 i|) :
    gmin = 1 ∧ gmax = 15 / 2 := by
  have hx0 : w.xmem 0 0 = -3 := by rw [hx 0 (by decide)]; rfl
  have hx1 : w.xmem 0 1 = 1 := by rw [hx 1 (by decide)]; rfl
  have hx2 : w.xmem 0 2 = -15 / 2 := by rw [hx 2 (by decide)]; rfl
  have hx3 : w.xmem 0 3 = 2 := by rw [hx 3 (by decide)]; rfl
  have a0 : |w.xmem 0 0| = 3 := by rw [hx0]; norm_num [abs_of_neg]
  have a1 : |w.xmem 0 1| = 1 := by rw [hx1]; norm_num
  have a2 : |w.xmem 0 2| = 15 / 2 := by rw [hx2]; norm_num [abs_of_neg]
  have a3 : |w.xmem 0 3| = 2 := by rw [hx3]; norm_num
  have cases4 : ∀ i, i < w.n → i = 0 ∨ i = 1 ∨ i = 2 ∨ i = 3 := by
    intro i hi
    omega
  constructor
  · have hle := h2 1 (by omega)
    rw [a1] at hle
    obtain ⟨i, hi, he⟩ := h3
    rcases cases4 i hi with rfl | rfl | rfl | rfl
    · rw [a0] at he; rw [he] at hle; norm_num at hle
    · rw [a1] at he; exact he
    · rw [a2] at he; rw [he] at hle; norm_num at hle
    · rw [a3] at he; rw [he] at hle; norm_num at hle
  · have hle := h4 2 (by omega)
    rw [a2] at hle
    obtain ⟨i, hi, he⟩ := h5
    rcases cases4 i hi with rfl | rfl | rfl | rfl
    · rw [a0] at he; rw [he] at hle; norm_num at hle
    · rw [a1] at he; rw [he] at hle; norm_num at hle
    · rw [a2] at he; exact he
    · rw [a3] at he; rw [he] at hle; norm_num at hle

/-- The statistics of a run on a non-empty data set in exact arithmetic, with
the `int` counter. -/
theorem mainA_stats (w : Run) (fuel : Nat) (hsize : 1 ≤ w.size) (h1 : 1 ≤ w.n)
    (hint : w.n + w.size ≤ INT_MAX + 1) (hn : w.n ≤ w.totalNum) (hfuel : w.n ≤ fuel) :
    ∃ o : Outcome, mainA exact fuel w = some o ∧
      o.sum1 = Dbl.fin (∑ i ∈ Finset.range w.n, w.xmem 0 i) ∧
      o.mean = Dbl.fin ((∑ i ∈ Finset.range w.n, w.xmem 0 i) / (w.n : ℚ)) ∧
      o.sum2 = Dbl.fin (∑ i ∈ Finset.range w.n,
        (w.xmem 0 i - (∑ j ∈ Finset.range w.n, w.xmem 0 j) / (w.n : ℚ)) ^ 2) ∧
      o.variance = Dbl.fin ((∑ i ∈ Finset.range w.n,
        (w.xmem 0 i - (∑ j ∈ Finset.range w.n, w.xmem 0 j) / (w.n : ℚ)) ^ 2) / (w.n : ℚ)) ∧
      (∀ i, i < w.n → o.global_minabs ≤ |w.xmem 0 i|) ∧
      (∃ i, i < w.n ∧ o.global_minabs = |w.xmem 0 i|) ∧
      (∀ i, i < w.n → |w.xmem 0 i| ≤ o.global_maxabs) ∧
      (∃ i, i < w.n ∧ o.global_maxabs = |w.xmem 0 i|) ∧
      o.printed = { minAbs := o.global_minabs, maxAbs := o.global_maxabs,
                    mean := o.variance, variance := o.variance } := by
  rw [mainA_exact_eq_main w fuel hsize hint hn hfuel]
  exact main_stats w fuel hsize h1 hn hfuel

theorem direct_foldA (A : Arith) (mean : Dbl) (p : Proc) :
    ∀ (l : List Nat) (acc : Dbl), (∀ i ∈ l, i < p.x.len) →
      l.foldlM (fun t k => directBodyA A mean k t) (p, acc)
        = some (p, l.foldl (fun a k => A.add a (sqDevA A mean (p.x.cell k))) acc) := by
  intro l
  induction l with
  | nil => intro acc _; simp
  | cons i l ih =>
    intro acc h
    have hi := h i (List.mem_cons_self i l)
    have ht := ih (A.add acc (sqDevA A mean (p.x.cell i)))
      (fun k hk => h k (List.mem_cons_of_mem i hk))
    have hstep : directBodyA A mean i (p, acc)
        = some (p, A.add acc (sqDevA A mean (p.x.cell i))) := by
      simp [directBodyA, Buf.get, hi, sqDevA]
    rw [foldlM_cons_some _ _ _ i l hstep, ht, List.foldl_cons]

theorem directSqDevA_eq (A : Arith) (w : Run) (mean : Dbl) (rank fuel : Nat) (sq : Nat → Dbl)
    (hsize : 0 < w.size) (hint : w.n + w.size ≤ INT_MAX + 1) (hn : w.n ≤ w.totalNum)
    (hfuel : w.n ≤ fuel) :
    directSqDevA A fuel mean (procAt w rank sq)
      = some (procAt w rank sq, localSqDevA A w mean rank) := by
  unfold directSqDevA
  have e1 : (procAt w rank sq).size = w.size := rfl
  have e2 : (procAt w rank sq).n = w.n := rfl
  have e3 : (procAt w rank sq).rank = rank := rfl
  rw [e1, e2, e3, forLoopInt_eq_forLoop w.size w.n _ hint,
    forLoop_eq_foldlM w.size w.n _ hsize fuel rank _ (by omega),
    strideFrom_eq_owned w.size w.n hsize fuel rank (by omega),
    direct_foldA A mean _ (owned rank w.size w.n) (Dbl.fin 0)
      (fun i hi => lt_of_lt_of_le (owned_lt rank w.size w.n i hsize hi) hn)]
  congr 2
  unfold localSqDevA
  apply List.foldl_ext
  intro a k hk
  simp [procAt, xOf, owned_lt rank w.size w.n k hsize hk]

/-! ## The claims -/

/-- C1. Partition completeness: for every `n >= 0` and every group size
`P >= 1` with `n + P <= INT_MAX + 1`, so that the `int` counter does not
overflow, the index lists visited by the strided loops of ranks `0 .. P-1` are
pairwise disjoint, each without repetition, and together they are exactly
`0 .. n-1`: every index below `n` is visited by exactly one rank, once. -/
theorem partition_complete (n P : Nat) (hP : 1 ≤ P) (hint : n + P ≤ INT_MAX + 1) :
    ∃ parts : Nat → List Nat,
      (∀ fuel rank, n ≤ fuel → rank < P → visitedInt rank P n fuel = some (parts rank)) ∧
      (∀ r s, r < P → s < P → r ≠ s → (parts r).Disjoint (parts s)) ∧
      (∀ i, (∃ rank, rank < P ∧ i ∈ parts rank) ↔ i < n) ∧
      (∀ i, i < n → ∃! rank, rank < P ∧ i ∈ parts rank) ∧
      (∀ rank, rank < P → (parts rank).Nodup) ∧
      ((List.range P).map parts).flatten.Perm (List.range n) := by
  refine ⟨fun r => owned r P n, ?_, ?_, ?_, ?_, ?_, ?_⟩
  · intro fuel rank hfuel _
    exact visitedInt_eq_owned rank P n fuel hP hint hfuel
  · intro r s hr hs hne
    exact owned_disjoint r s P n hr hs hne
  · intro i
    constructor
    · rintro ⟨r, hr, hi⟩
      exact ((mem_owned_mod r P n i hr).1 hi).1
    · intro hi
      exact ⟨i % P, Nat.mod_lt i hP, (mem_owned_mod _ P n i (Nat.mod_lt i hP)).2 ⟨hi, rfl⟩⟩
  · intro i hi
    refine ⟨i % P, ⟨Nat.mod_lt i hP, (mem_owned_mod _ P n i (Nat.mod_lt i hP)).2 ⟨hi, rfl⟩⟩, ?_⟩
    rintro r ⟨hr, hm⟩
    exact ((mem_owned_mod r P n i hr).1 hm).2.symm
  · intro rank _
    exact owned_nodup rank P n hP
  · exact owned_flatten_perm P n hP

theorem partition_complete_witness :
    ∃ parts : Nat → List Nat,
      (∀ fuel rank, 10 ≤ fuel → rank < 3 → visitedInt rank 3 10 fuel = some (parts rank)) ∧
      (∀ r s, r < 3 → s < 3 → r ≠ s → (parts r).Disjoint (parts s)) ∧
      (∀ i, (∃ rank, rank < 3 ∧ i ∈ parts rank) ↔ i < 10) ∧
      (∀ i, i < 10 → ∃! rank, rank < 3 ∧ i ∈ parts rank) ∧
      (∀ rank, rank < 3 → (parts rank).Nodup) ∧
      ((List.range 3).map parts).flatten.Perm (List.range 10) :=
  partition_complete 10 3 (by decide) (by decide)

/-- C2. For every `n >= 0`, `P >= 1` and `rank < P` with `n + P <= INT_MAX + 1`,
so that the `int` counter does not overflow, the strided loop visits, in
ascending order, `rank, rank + P, rank + 2 * P, ...` as long as the index is
below `n`, and the indices visited are exactly the `i < n` with
`i mod P = rank`. -/
theorem strided_indices (n P rank : Nat) (hr : rank < P) (hint : n + P ≤ INT_MAX + 1) :
    ∃ l : List Nat,
      (∀ fuel, n ≤ fuel → visitedInt rank P n fuel = some l) ∧
      l.Pairwise (fun a b => a < b) ∧
      (∀ j (hj : j < l.length), l.get ⟨j, hj⟩ = rank + j * P) ∧
      (∀ j, j < l.length ↔ rank + j * P < n) ∧
      (∀ i, i ∈ l ↔ i < n ∧ i % P = rank) := by
  have hP : 0 < P := by omega
  refine ⟨owned rank P n, fun fuel hfuel => visitedInt_eq_owned rank P n fuel hP hint hfuel,
    owned_sorted rank P n hP,
    fun j hj => owned_get rank P n j hj, ?_, fun i => mem_owned_mod rank P n i hr⟩
  intro j
  constructor
  · intro hj
    have hm : (owned rank P n).get ⟨j, hj⟩ ∈ owned rank P n := List.get_mem _ _ _
    rw [owned_get rank P n j hj, mem_owned_mod rank P n _ hr] at hm
    exact hm.1
  · intro hj
    simp only [owned, List.length_map, List.length_range]
    apply (Nat.le_div_iff_mul_le hP).2
    rw [Nat.succ_mul]
    omega

theorem strided_indices_witness :
    ∃ l : List Nat,
      (∀ fuel, 10 ≤ fuel → visitedInt 1 3 10 fuel = some l) ∧
      l.Pairwise (fun a b => a < b) ∧
      (∀ j (hj : j < l.length), l.get ⟨j, hj⟩ = 1 + j * 3) ∧
      (∀ j, j < l.length ↔ 1 + j * 3 < 10) ∧
      (∀ i, i ∈ l ↔ i < 10 ∧ i % 3 = 1) :=
  strided_indices 10 3 1 (by decide) (by decide)

/-- C3. Reduction correctness (sum), over exact arithmetic: for every data set
and every group size `P >= 1` with `n + P <= INT_MAX + 1`, on every rank the
first pass returns the sum of the data cells the strided loop of the rank
visits, and the value the SUM reduction hands to rank 0 is the sum of
`x[0 .. n-1]` taken by one sequential pass. -/
theorem reduced_sum_eq_sequential (w : Run) (fuel : Nat) (hsize : 1 ≤ w.size)
    (hint : w.n + w.size ≤ INT_MAX + 1) (hn : w.n ≤ w.totalNum) (hfuel : w.n ≤ fuel) :
    (∀ rank, rank < w.size → ∃ p l, procInit w rank = some p ∧
        visitedInt rank w.size w.n fuel = some l ∧
        procPass1A exact fuel p = some (p, Dbl.fin ((l.map (w.xmem 0)).sum))) ∧
    ∃ o : Outcome, mainA exact fuel w = some o ∧
      o.sum1 = Dbl.fin (seqSum (w.xmem 0) w.n) := by
  constructor
  · intro rank _
    refine ⟨_, _, procInit_eq w rank hn,
      visitedInt_eq_owned rank w.size w.n fuel hsize hint hfuel, ?_⟩
    rw [procPass1A_exact w rank fuel _ hsize hint hn hfuel]
    exact procPass1_eq w rank fuel _ hsize hn hfuel
  · rw [mainA_exact_eq_main w fuel hsize hint hn hfuel]
    rcases Nat.eq_zero_or_pos w.n with h0 | h1
    · obtain ⟨gmin, gmax, hmain, _, _⟩ := main_zero w fuel hsize h0
      refine ⟨_, hmain, ?_⟩
      rw [h0]
      rfl
    · obtain ⟨o, hmain, hs, _⟩ := main_stats w fuel hsize h1 hn hfuel
      refine ⟨o, hmain, ?_⟩
      rw [hs, seqSum_eq, list_sum_range]

theorem reduced_sum_eq_sequential_witness :
    (∀ rank, rank < (runA 3).size → ∃ p l, procInit (runA 3) rank = some p ∧
        visitedInt rank (runA 3).size (runA 3).n 8 = some l ∧
        procPass1A exact 8 p = some (p, Dbl.fin ((l.map ((runA 3).xmem 0)).sum))) ∧
    ∃ o : Outcome, mainA exact 8 (runA 3) = some o ∧
      o.sum1 = Dbl.fin (seqSum ((runA 3).xmem 0) (runA 3).n) :=
  reduced_sum_eq_sequential (runA 3) 8 (by decide) (by decide) (by decide) (by decide)

/-- C4, as stated, fails: in double arithmetic, one rank on the data set
`[1e16, 1.0, -1e16]` computes the sum `0` (the addition `1e16 + 1.0` rounds to
`1e16`) and so the mean `0`, while `(sum of x[i]) / n` is `1/3`. -/
theorem mean_rounding_counterexample :
    (mainA ieee 3 (runBig 1)).map Outcome.mean = some (Dbl.fin 0) ∧
    (∑ i ∈ Finset.range (runBig 1).n, (runBig 1).xmem 0 i) / ((runBig 1).n : ℚ) = 1 / 3 ∧
    ¬ ∃ o : Outcome, mainA ieee 3 (runBig 1) = some o ∧
      o.mean = Dbl.fin
        ((∑ i ∈ Finset.range (runBig 1).n, (runBig 1).xmem 0 i) / ((runBig 1).n : ℚ)) := by
  have h1 : (mainA ieee 3 (runBig 1)).map Outcome.mean = some (Dbl.fin 0) := by decide!
  have h2 : (∑ i ∈ Finset.range (runBig 1).n, (runBig 1).xmem 0 i) / ((runBig 1).n : ℚ)
      = 1 / 3 := by
    simp [runBig, Finset.sum_range_succ]
  refine ⟨h1, h2, ?_⟩
  rintro ⟨o, ho, hm⟩
  rw [ho, Option.map_some', hm, h2] at h1
  have h3 : (1 / 3 : ℚ) = 0 := Dbl.fin.inj (Option.some.inj h1)
  norm_num at h3

/-- C4, amended. Over exact arithmetic, for every data set of length `n >= 1`
and every group size `P >= 1` with `n + P <= INT_MAX + 1`, the mean rank 0
computes is `(sum of x[i]) / n` and the variance it computes is
`(sum of (x[i] - mean)^2) / n`; on the data set `[2, 4, 4, 4, 5, 5, 7, 9]` they
are `5` and `4`, over exact arithmetic for every `P`, and in double arithmetic
for every `P` in `{1, 2, 3, 4, 8}`. -/
theorem mean_variance_correct (w : Run) (fuel : Nat) (hsize : 1 ≤ w.size) (h1 : 1 ≤ w.n)
    (hint : w.n + w.size ≤ INT_MAX + 1) (hn : w.n ≤ w.totalNum) (hfuel : w.n ≤ fuel) :
    (∃ o : Outcome, mainA exact fuel w = some o ∧
      o.mean = Dbl.fin ((∑ i ∈ Finset.range w.n, w.xmem 0 i) / (w.n : ℚ)) ∧
      o.variance = Dbl.fin ((∑ i ∈ Finset.range w.n,
        (w.xmem 0 i - (∑ j ∈ Finset.range w.n, w.xmem 0 j) / (w.n : ℚ)) ^ 2) / (w.n : ℚ)) ∧
      (w.n = 8 → (∀ i, i < 8 → w.xmem 0 i = dataA i) →
        o.mean = Dbl.fin 5 ∧ o.variance = Dbl.fin 4)) ∧
    (∀ P, P ∈ [1, 2, 3, 4, 8] →
      (mainA ieee 8 (runA P)).map (fun o => (o.mean, o.variance))
        = some (Dbl.fin 5, Dbl.fin 4)) := by
  constructor
  · obtain ⟨o, hmain, _, hm, _, hv, _⟩ := mainA_stats w fuel hsize h1 hint hn hfuel
    refine ⟨o, hmain, hm, hv, ?_⟩
    intro hn8 hx
    obtain ⟨e1, e2⟩ := stats_dataA w hn8 hx
    rw [hm, hv, e2, e1]
    exact ⟨rfl, rfl⟩
  · intro P hP
    simp only [List.mem_cons, List.mem_singleton, List.not_mem_nil, or_false] at hP
    rcases hP with rfl | rfl | rfl | rfl | rfl
    · decide!
    · decide!
    · decide!
    · decide!
    · decide!

theorem mean_variance_correct_witness :
    (∃ o : Outcome, mainA exact 8 (runA 3) = some o ∧
      o.mean = Dbl.fin 5 ∧ o.variance = Dbl.fin 4) ∧
    (mainA ieee 8 (runA 3)).map (fun o => (o.mean, o.variance))
      = some (Dbl.fin 5, Dbl.fin 4) := by
  obtain ⟨⟨o, hmain, _, _, h⟩, h2⟩ :=
    mean_variance_correct (runA 3) 8 (by decide) (by decide) (by decide) (by decide)
      (by decide)
  exact ⟨⟨o, hmain, h rfl (fun _ _ => rfl)⟩, h2 3 (by decide)⟩

/-- C5. Min/max-abs correctness: for every data set of length `n >= 1` held in
a block of `totalNum >= n` cells (so also when `totalNum = n`) and every group
size `P >= 1` with `n + P <= INT_MAX + 1`, in every arithmetic of the doubles,
every rank starts from `|x[0]|`, the MIN reduction yields the least and the MAX
reduction the greatest of the `|x[i]|`, `i < n`; on the data set
`[-3, 1, -7.5, 2]` they are `1` and `7.5`, whatever `P` is. -/
theorem minmax_abs_correct (A : Arith) (w : Run) (fuel : Nat) (hsize : 1 ≤ w.size)
    (h1 : 1 ≤ w.n) (hint : w.n + w.size ≤ INT_MAX + 1) (hn : w.n ≤ w.totalNum)
    (hfuel : w.n ≤ fuel) :
    (∀ rank, rank < w.size → ∃ p, procInit w rank = some p ∧
        absSeed p = some (|w.xmem 0 0|, |w.xmem 0 0|)) ∧
    ∃ o : Outcome, mainA A fuel w = some o ∧
      (∀ i, i < w.n → o.global_minabs ≤ |w.xmem 0 i|) ∧
      (∃ i, i < w.n ∧ o.global_minabs = |w.xmem 0 i|) ∧
      (∀ i, i < w.n → |w.xmem 0 i| ≤ o.global_maxabs) ∧
      (∃ i, i < w.n ∧ o.global_maxabs = |w.xmem 0 i|) ∧
      (w.n = 4 → (∀ i, i < 4 → w.xmem 0 i = dataB i) →
        o.global_minabs = 1 ∧ o.global_maxabs = 15 / 2) := by
  constructor
  · intro rank _
    refine ⟨_, procInit_eq w rank hn, ?_⟩
    have ht : w.totalNum > 0 := by omega
    have h0 : 0 < w.n := by omega
    simp [absSeed, procAt, Buf.get, xOf, ht, h0]
  · obtain ⟨o, hmain, h2, h3, h4, h5, _⟩ := mainA_minmax A w fuel hsize h1 hint hn hfuel
    exact ⟨o, hmain, h2, h3, h4, h5,
      fun hn4 hx => minmax_dataB w _ _ hn4 hx h2 h3 h4 h5⟩

theorem minmax_abs_correct_witness :
    ∃ o : Outcome, mainA ieee 4 (runB 3) = some o ∧
      o.global_minabs = 1 ∧ o.global_maxabs = 15 / 2 := by
  obtain ⟨o, hmain, _, _, _, _, h⟩ :=
    (minmax_abs_correct ieee (runB 3) 4 (by decide) (by decide) (by decide) (by decide)
      (by decide)).2
  exact ⟨o, hmain, h rfl (fun _ _ => rfl)⟩

/-- C6. On the data set `[2, 4, 4, 4, 5, 5, 7, 9]` with two ranks, rank 0
computes the mean `5` and the variance `4`, and the value it prints after
`with mean:` (line 125) is the variance `4`, not the mean. -/
theorem report_prints_variance_as_mean :
    ∃ o : Outcome, main 8 (runA 2) = some o ∧
      o.mean = Dbl.fin 5 ∧ o.variance = Dbl.fin 4 ∧
      o.printed.mean = Dbl.fin 4 ∧ o.printed.variance = Dbl.fin 4 ∧
      o.printed.minAbs = o.global_minabs ∧ o.printed.maxAbs = o.global_maxabs ∧
      o.printed.mean ≠ o.mean := by
  obtain ⟨o, hmain, _, hm, _, hv, _, _, _, _, hp⟩ :=
    main_stats (runA 2) 8 (by decide) (by decide) (by decide) (by decide)
  obtain ⟨e1, e2⟩ := stats_dataA (runA 2) rfl (fun _ _ => rfl)
  rw [e2] at hv
  rw [e1] at hm
  refine ⟨o, hmain, hm, hv, ?_, ?_, ?_, ?_, ?_⟩
  · rw [hp]; exact hv
  · rw [hp]; exact hv
  · rw [hp]
  · rw [hp]
  · rw [hp, hm]
    show o.variance ≠ Dbl.fin 5
    rw [hv]
    decide

/-- C7. Group-size invariance, over exact arithmetic: for every data set of
length `n >= 1` and any two group sizes `P, P' >= 1` with `n + P` and `n + P'`
at most `INT_MAX + 1`, the run with `P` ranks and the run with `P'` ranks end
with the same mean, variance, minimum and maximum absolute value, and print the
same values. -/
theorem group_size_invariance (w : Run) (P P' fuel : Nat) (hP : 1 ≤ P) (hP' : 1 ≤ P')
    (h1 : 1 ≤ w.n) (hint : w.n + P ≤ INT_MAX + 1) (hint' : w.n + P' ≤ INT_MAX + 1)
    (hn : w.n ≤ w.totalNum) (hfuel : w.n ≤ fuel) :
    ∃ o o' : Outcome,
      mainA exact fuel { w with size := P } = some o ∧
      mainA exact fuel { w with size := P' } = some o' ∧
      o.mean = o'.mean ∧ o.variance = o'.variance ∧
      o.global_minabs = o'.global_minabs ∧ o.global_maxabs = o'.global_maxabs ∧
      o.printed = o'.printed := by
  obtain ⟨o, hmain, _, hm, _, hv, a1, a2, a3, a4, hp⟩ :=
    mainA_stats { w with size := P } fuel hP h1 hint hn hfuel
  obtain ⟨o', hmain', _, hm', _, hv', b1, b2, b3, b4, hp'⟩ :=
    mainA_stats { w with size := P' } fuel hP' h1 hint' hn hfuel
  have emin : o.global_minabs = o'.global_minabs := by
    obtain ⟨i, hi, hi'⟩ := a2
    obtain ⟨j, hj, hj'⟩ := b2
    apply le_antisymm
    · rw [hj']; exact a1 j hj
    · rw [hi']; exact b1 i hi
  have emax : o.global_maxabs = o'.global_maxabs := by
    obtain ⟨i, hi, hi'⟩ := a4
    obtain ⟨j, hj, hj'⟩ := b4
    apply le_antisymm
    · rw [hi']; exact b3 i hi
    · rw [hj']; exact a3 j hj
  have evar : o.variance = o'.variance := hv.trans hv'.symm
  refine ⟨o, o', hmain, hmain', hm.trans hm'.symm, evar, emin, emax, ?_⟩
  rw [hp, hp', emin, emax, evar]

theorem group_size_invariance_witness :
    ∃ o o' : Outcome,
      mainA exact 8 { runA 1 with size := 4 } = some o ∧
      mainA exact 8 { runA 1 with size := 7 } = some o' ∧
      o.mean = o'.mean ∧ o.variance = o'.variance ∧
      o.global_minabs = o'.global_minabs ∧ o.global_maxabs = o'.global_maxabs ∧
      o.printed = o'.printed :=
  group_size_invariance (runA 1) 4 7 8 (by decide) (by decide) (by decide) (by decide)
    (by decide) (by decide) (by decide)

/-- C8, as stated, fails: with one rank and an empty data set the run ends
having executed a division whose divisor is zero. -/
theorem empty_dataset_counterexample :
    ∃ o : Outcome, main 0 (runEmpty 1 0 0) = some o ∧ ¬ (∀ d ∈ o.divisions, d.2 ≠ 0) := by
  obtain ⟨gmin, gmax, hmain, _, _⟩ := main_zero (runEmpty 1 0 0) 0 (by decide) rfl
  refine ⟨_, hmain, ?_⟩
  intro h
  exact h (Dbl.fin 0, 0) (List.mem_cons_self _ _) rfl

/-- C8, amended. For `n = 0` and every group size `P >= 1` the run ends with a
result: both sums are `0`, rank 0 executes the two divisions `sum / (double) n`
with numerator `0` and divisor `0`, and the mean and the variance it computes
and prints are the outcome of that division, a non-finite value. -/
theorem empty_dataset_divides_by_zero (w : Run) (fuel : Nat) (hsize : 1 ≤ w.size)
    (h0 : w.n = 0) :
    ∃ o : Outcome, main fuel w = some o ∧
      o.sum1 = Dbl.fin 0 ∧ o.sum2 = Dbl.fin 0 ∧
      o.divisions = [(Dbl.fin 0, 0), (Dbl.fin 0, 0)] ∧
      o.mean = (Dbl.fin 0).divInt 0 ∧ o.variance = (Dbl.fin 0).divInt 0 ∧
      o.mean = Dbl.nan ∧ o.variance = Dbl.nan ∧
      o.printed.mean = Dbl.nan ∧ o.printed.variance = Dbl.nan := by
  obtain ⟨gmin, gmax, hmain, _, _⟩ := main_zero w fuel hsize h0
  exact ⟨_, hmain, rfl, rfl, rfl, rfl, rfl, rfl, rfl, rfl, rfl⟩

theorem empty_dataset_divides_by_zero_witness :
    ∃ o : Outcome, main 0 (runEmpty 3 0 0) = some o ∧
      o.sum1 = Dbl.fin 0 ∧ o.sum2 = Dbl.fin 0 ∧
      o.divisions = [(Dbl.fin 0, 0), (Dbl.fin 0, 0)] ∧
      o.mean = (Dbl.fin 0).divInt 0 ∧ o.variance = (Dbl.fin 0).divInt 0 ∧
      o.mean = Dbl.nan ∧ o.variance = Dbl.nan ∧
      o.printed.mean = Dbl.nan ∧ o.printed.variance = Dbl.nan :=
  empty_dataset_divides_by_zero (runEmpty 3 0 0) 0 (by decide) rfl

/-- C9, as stated, fails: with two ranks and the one value `3.0`, rank 1 visits
no index and contributes `3` to the MIN and to the MAX reduction, and `3` is
neutral neither for `min` nor for `max`. -/
theorem empty_partition_counterexample :
    ∃ (p : Proc) (m M : ℚ), procInit runOne 1 = some p ∧ visited 1 2 1 1 = some [] ∧
      procPass3 1 p = some (p, m, M) ∧
      ¬ (∀ v : ℚ, min m v = v) ∧ ¬ (∀ v : ℚ, max M v = v) := by
  refine ⟨_, 3, 3, procInit_eq runOne 1 (by decide), by decide, ?_, ?_, ?_⟩
  · rw [procPass3_eq runOne 1 1 _ (by decide) (by decide) (by decide)]
    have ho : owned 1 2 1 = [] := by decide
    have e1 : localMin runOne 1 = 3 := by
      simp [localMin, runOne, ho, seedOf, xOf]
    have e2 : localMax runOne 1 = 3 := by
      simp [localMax, runOne, ho, seedOf, xOf]
    rw [e1, e2]
  · intro h
    have := h 4
    norm_num at this
  · intro h
    have := h 0
    norm_num at this

/-- C9, amended. When the data set is not empty (`n >= 1`) or nothing was
announced (`totalNum = 0`), a rank with `rank >= n` visits no index; it
contributes `0` to both SUM reductions, and to the MIN and to the MAX reduction
it contributes its start value: `|x[0]|`, the first data value, when `n >= 1`,
and `0` when `totalNum = 0`. No loop body runs, so this holds with the `int`
counter and in every arithmetic of the doubles as well. -/
theorem empty_partition_contributions (w : Run) (rank fuel : Nat) (mean : Dbl)
    (hn : w.n ≤ w.totalNum) (hr : w.n ≤ rank) (hcase : 1 ≤ w.n ∨ w.totalNum = 0) :
    ∃ p : Proc, procInit w rank = some p ∧
      visited rank w.size w.n fuel = some [] ∧
      procPass1 fuel p = some (p, Dbl.fin 0) ∧
      procPass2 fuel mean p = some (p, Dbl.fin 0) ∧
      p.x.get 0 = (if 1 ≤ w.n then some (w.xmem 0 0) else none) ∧
      procPass3 fuel p =
        (if 1 ≤ w.n then some (p, |w.xmem 0 0|, |w.xmem 0 0|) else some (p, 0, 0)) ∧
      visitedInt rank w.size w.n fuel = some [] ∧
      (∀ A : Arith, procPass1A A fuel p = some (p, Dbl.fin 0) ∧
        procPass2A A fuel mean p = some (p, Dbl.fin 0)) ∧
      procPass3A fuel p = procPass3 fuel p := by
  refine ⟨_, procInit_eq w rank hn, forLoop_done _ _ _ _ _ _ hr, forLoop_done _ _ _ _ _ _ hr,
    ?_, ?_, ?_, forLoopInt_done _ _ _ _ _ _ hr, ?_, ?_⟩
  · unfold procPass2
    have e : forLoop (procAt w rank (w.sqmem rank)).size (procAt w rank (w.sqmem rank)).n
        (sqDiffBody mean) fuel (procAt w rank (w.sqmem rank)).rank
        (procAt w rank (w.sqmem rank)) = some (procAt w rank (w.sqmem rank)) :=
      forLoop_done _ _ _ _ _ _ hr
    rw [e, Option.some_bind]
    exact forLoop_done _ _ _ _ _ _ hr
  · rcases hcase with h1 | ht
    · have ht : 0 < w.totalNum := by omega
      have h0 : 0 < w.n := by omega
      simp [procAt, xOf, Buf.get, ht, h0, h1]
    · have h0 : ¬ 1 ≤ w.n := by omega
      simp [procAt, xOf, Buf.get, ht, h0]
  · unfold procPass3
    rcases hcase with h1 | ht
    · have ht : w.totalNum > 0 := by omega
      have h0 : 0 < w.n := by omega
      have hs : absSeed (procAt w rank (w.sqmem rank))
          = some (|w.xmem 0 0|, |w.xmem 0 0|) := by
        simp [absSeed, procAt, xOf, Buf.get, ht, h0]
      rw [hs, Option.some_bind, if_pos h1]
      exact forLoop_done _ _ _ _ _ _ hr
    · have h0 : ¬ 1 ≤ w.n := by omega
      have hs : absSeed (procAt w rank (w.sqmem rank)) = some (0, 0) := by
        simp [absSeed, procAt, ht]
      rw [hs, Option.some_bind, if_neg h0]
      exact forLoop_done _ _ _ _ _ _ hr
  · intro A
    refine ⟨forLoopInt_done _ _ _ _ _ _ hr, ?_⟩
    unfold procPass2A
    have e : forLoopInt (procAt w rank (w.sqmem rank)).size (procAt w rank (w.sqmem rank)).n
        (sqDiffBodyA A mean) fuel (procAt w rank (w.sqmem rank)).rank
        (procAt w rank (w.sqmem rank)) = some (procAt w rank (w.sqmem rank)) :=
      forLoopInt_done _ _ _ _ _ _ hr
    rw [e, Option.some_bind]
    exact forLoopInt_done _ _ _ _ _ _ hr
  · unfold procPass3A procPass3
    cases absSeed (procAt w rank (w.sqmem rank)) with
    | none => rfl
    | some seed =>
      rw [Option.some_bind, Option.some_bind]
      exact (forLoopInt_done _ _ _ _ _ _ hr).trans (forLoop_done _ _ _ _ _ _ hr).symm

theorem empty_partition_contributions_witness :
    ∃ p : Proc, procInit runOne 1 = some p ∧
      visited 1 runOne.size runOne.n 1 = some [] ∧
      procPass1 1 p = some (p, Dbl.fin 0) ∧
      procPass2 1 (Dbl.fin 3) p = some (p, Dbl.fin 0) ∧
      p.x.get 0 = (if 1 ≤ runOne.n then some (runOne.xmem 0 0) else none) ∧
      procPass3 1 p =
        (if 1 ≤ runOne.n then some (p, |runOne.xmem 0 0|, |runOne.xmem 0 0|)
        else some (p, 0, 0)) ∧
      visitedInt 1 runOne.size runOne.n 1 = some [] ∧
      (∀ A : Arith, procPass1A A 1 p = some (p, Dbl.fin 0) ∧
        procPass2A A 1 (Dbl.fin 3) p = some (p, Dbl.fin 0)) ∧
      procPass3A 1 p = procPass3 1 p :=
  empty_partition_contributions runOne 1 1 (Dbl.fin 3) (by decide) (by decide)
    (Or.inl (by decide))

/-- C10. Two runs of one rank that read no value (`n = 0`) and so agree on `n`
and on `x[0 .. n-1]`: when one announces `totalNum = 1` and the other
`totalNum = 0`, or when both announce `totalNum = 1` and differ in the unread
cell `x[0]`, the minimum and maximum absolute values they end with differ. -/
theorem count_mismatch_reads_unread_cell :
    (∃ o o' : Outcome,
      main 0 (runEmpty 1 1 7) = some o ∧ main 0 (runEmpty 1 0 7) = some o' ∧
      o.global_minabs = 7 ∧ o'.global_minabs = 0 ∧
      o.global_maxabs = 7 ∧ o'.global_maxabs = 0) ∧
    (∃ o o' : Outcome,
      main 0 (runEmpty 1 1 7) = some o ∧ main 0 (runEmpty 1 1 9) = some o' ∧
      o.global_minabs = 7 ∧ o'.global_minabs = 9 ∧
      o.global_maxabs = 7 ∧ o'.global_maxabs = 9) := by
  have key : ∀ (t : Nat) (junk : ℚ), ∃ o : Outcome, main 0 (runEmpty 1 t junk) = some o ∧
      o.global_minabs = (if t > 0 then |junk| else 0) ∧
      o.global_maxabs = (if t > 0 then |junk| else 0) := by
    intro t junk
    obtain ⟨gmin, gmax, hmain, hmin, hmax⟩ := main_zero (runEmpty 1 t junk) 0 (Nat.le_refl 1) rfl
    refine ⟨_, hmain, ?_, ?_⟩
    · simp [runEmpty, mpiReduce, seedOf, xOf, List.range_succ] at hmin
      exact hmin.symm
    · simp [runEmpty, mpiReduce, seedOf, xOf, List.range_succ] at hmax
      exact hmax.symm
  obtain ⟨o1, h1, a1, b1⟩ := key 1 7
  obtain ⟨o2, h2, a2, b2⟩ := key 0 7
  obtain ⟨o3, h3, a3, b3⟩ := key 1 9
  norm_num at a1 b1 a2 b2 a3 b3
  exact ⟨⟨o1, o2, h1, h2, a1, a2, b1, b2⟩, ⟨o1, o3, h1, h3, a1, a3, b1, b3⟩⟩

/-! ## Traces, frames and bounds -/

theorem procTrace_eq (w : Run) (fuel rank : Nat) (mean : Dbl) (hsize : 0 < w.size)
    (hn : w.n ≤ w.totalNum) (hfuel : w.n ≤ fuel) :
    procTrace fuel w rank mean = some
      [ { step := Step.broadcastSize, kind := Kind.bcast, buf := Var.totalNum,
          count := 1, root := 0 },
        { step := Step.broadcastSize, kind := Kind.bcast, buf := Var.n,
          count := 1, root := 0 },
        { step := Step.broadcastData, kind := Kind.bcast, buf := Var.x,
          count := w.n, root := 0 },
        { step := Step.reduceSum, kind := Kind.reduceSum, buf := Var.local_sum,
          count := 1, root := 0 },
        { step := Step.broadcastMean, kind := Kind.bcast, buf := Var.mean,
          count := 1, root := 0 },
        { step := Step.reduceSumSqDev, kind := Kind.reduceSum, buf := Var.local_sum,
          count := 1, root := 0 },
        { step := Step.reduceMin, kind := Kind.reduceMin, buf := Var.minabs,
          count := 1, root := 0 },
        { step := Step.reduceMax, kind := Kind.reduceMax, buf := Var.maxabs,
          count := 1, root := 0 } ] := by
  unfold procTrace
  simp only [procInit_eq w rank hn, procPass1_eq w rank fuel _ hsize hn hfuel,
    procPass2_eq w mean rank fuel _ hsize hn hfuel, procPass3_eq w rank fuel _ hsize hn hfuel,
    Option.some_bind, Option.map_some']
  rfl

theorem main_some (w : Run) (fuel : Nat) (hsize : 1 ≤ w.size) (hn : w.n ≤ w.totalNum)
    (hfuel : w.n ≤ fuel) : ∃ o : Outcome, main fuel w = some o := by
  rcases Nat.eq_zero_or_pos w.n with h0 | h1
  · obtain ⟨gmin, gmax, hmain, _, _⟩ := main_zero w fuel hsize h0
    exact ⟨_, hmain⟩
  · obtain ⟨gmin, gmax, hmain, _⟩ := main_pos w fuel hsize h1 hn hfuel
    exact ⟨_, hmain⟩

theorem owned_length (rank size n : Nat) :
    (owned rank size n).length = (n - rank + size - 1) / size := by
  simp [owned]

theorem count_bounds (size n rank : Nat) (hsize : 0 < size) (hr : rank < n) :
    0 < (n - rank + size - 1) / size ∧
      size * ((n - rank + size - 1) / size - 1) < n - rank ∧
      n - rank ≤ size * ((n - rank + size - 1) / size) := by
  have h1 : size * ((n - rank + size - 1) / size) ≤ n - rank + size - 1 := Nat.mul_div_le _ _
  have h2 : n - rank + size - 1 < size * ((n - rank + size - 1) / size + 1) :=
    Nat.lt_mul_div_succ _ hsize
  have h3 : 0 < (n - rank + size - 1) / size := Nat.div_pos (by omega) hsize
  obtain ⟨c, hc⟩ : ∃ c, (n - rank + size - 1) / size = c + 1 := ⟨_, (Nat.succ_pred_eq_of_pos h3).symm⟩
  rw [hc] at h1 h2 ⊢
  rw [Nat.mul_succ] at h1 h2
  rw [Nat.mul_succ] at h2
  refine ⟨Nat.succ_pos c, ?_, ?_⟩
  · rw [Nat.add_sub_cancel]
    omega
  · rw [Nat.mul_succ]
    omega

theorem count_ceil (size n rank : Nat) (hsize : 0 < size) (hr : rank < n) :
    (n - rank + size - 1) / size = ⌈((n - rank : ℕ) : ℚ) / (size : ℚ)⌉₊ := by
  obtain ⟨h0, h1, h2⟩ := count_bounds size n rank hsize hr
  have hs : (0 : ℚ) < (size : ℚ) := by exact_mod_cast hsize
  symm
  rw [Nat.ceil_eq_iff (Nat.pos_iff_ne_zero.1 h0)]
  constructor
  · rw [lt_div_iff₀ hs]
    have : ((n - rank + size - 1) / size - 1) * size < n - rank := by
      rw [Nat.mul_comm]; exact h1
    exact_mod_cast this
  · rw [div_le_iff₀ hs]
    have : n - rank ≤ ((n - rank + size - 1) / size) * size := by
      rw [Nat.mul_comm]; exact h2
    exact_mod_cast this

theorem count_near (size n r s : Nat) (hsize : 0 < size) (hr : r < size) (hs : s < size) :
    (n - r + size - 1) / size ≤ (n - s + size - 1) / size + 1 := by
  rw [← Nat.add_div_right _ hsize]
  apply Nat.div_le_div_right
  omega

theorem reduce_const_zero (op : ℚ → ℚ → ℚ) (hop : op 0 0 = 0) (size : Nat) (hsize : 0 < size) :
    mpiReduce op ((List.range size).map (fun _ => (0 : ℚ))) = some 0 := by
  obtain ⟨k, rfl⟩ : ∃ k, size = k + 1 := ⟨size - 1, by omega⟩
  rw [List.range_succ_eq_map]
  simp only [List.map_cons, mpiReduce, List.map_map]
  have key : ∀ l : List Nat, (l.map (fun _ => (0 : ℚ))).foldl op 0 = 0 := by
    intro l
    induction l with
    | nil => rfl
    | cons a l ih => simp only [List.map_cons, List.foldl_cons, hop]; exact ih
  exact congrArg some (key _)

/-! ## The claims, continued -/

/-- C11, as stated, fails: rank 1 of a run of two ranks issues eight collective
calls, not seven; the count broadcast is issued twice (`totalNum` on line 40,
`n` on line 54), so the steps are not the seven listed, each once. -/
theorem collective_order_counterexample :
    ∃ t : List Coll, procTrace 8 (runA 2) 1 (Dbl.fin 5) = some t ∧
      t.length = 8 ∧ t.map Coll.step ≠ specSteps ∧
      (t.map Coll.step).count Step.broadcastSize = 2 := by
  refine ⟨_, procTrace_eq (runA 2) 8 1 (Dbl.fin 5) (by decide) (by decide) (by decide), ?_, ?_, ?_⟩
  · rfl
  · decide
  · decide

/-- C11, amended. On every run that does not abort, every rank issues exactly
these collective calls, in this order, each with root 0: broadcast of the count
`totalNum`, broadcast of the count `n`, broadcast of the data, SUM reduction,
broadcast of the mean, SUM reduction of the squared deviations, MIN reduction,
MAX reduction. Apart from the count broadcast, which is issued twice, every
step is issued once; the sequence of steps does not depend on the rank, on `n`
or on the data, and all ranks of a run issue the same sequence. -/
theorem collective_order (w : Run) (fuel rank : Nat) (mean : Dbl) (hsize : 1 ≤ w.size)
    (hn : w.n ≤ w.totalNum) (hfuel : w.n ≤ fuel) :
    ∃ t : List Coll, procTrace fuel w rank mean = some t ∧
      t.map Coll.step =
        [Step.broadcastSize, Step.broadcastSize, Step.broadcastData, Step.reduceSum,
          Step.broadcastMean, Step.reduceSumSqDev, Step.reduceMin, Step.reduceMax] ∧
      t.map Coll.buf =
        [Var.totalNum, Var.n, Var.x, Var.local_sum, Var.mean, Var.local_sum, Var.minabs,
          Var.maxabs] ∧
      t.map Coll.kind =
        [Kind.bcast, Kind.bcast, Kind.bcast, Kind.reduceSum, Kind.bcast, Kind.reduceSum,
          Kind.reduceMin, Kind.reduceMax] ∧
      t.map Coll.count = [1, 1, w.n, 1, 1, 1, 1, 1] ∧
      (∀ c ∈ t, c.root = 0) ∧
      ∃ ts : List (List Coll), mainTrace fuel w = some ts ∧ ts.length = w.size ∧
        ∀ t' ∈ ts, t' = t := by
  refine ⟨_, procTrace_eq w fuel rank mean hsize hn hfuel, rfl, rfl, rfl, rfl, ?_, ?_⟩
  · intro c hc
    simp only [List.mem_cons, List.mem_singleton, List.not_mem_nil, or_false] at hc
    rcases hc with h | h | h | h | h | h | h | h <;> rw [h]
  · obtain ⟨o, ho⟩ := main_some w fuel hsize hn hfuel
    unfold mainTrace
    rw [ho, Option.some_bind,
      onRanks_range _ _ w.size (fun r _ => procTrace_eq w fuel r o.mean hsize hn hfuel)]
    refine ⟨_, rfl, by simp, ?_⟩
    intro t' ht'
    obtain ⟨r, _, hr⟩ := List.mem_map.1 ht'
    exact hr.symm

theorem collective_order_witness :
    ∃ t : List Coll, procTrace 8 (runA 2) 1 (Dbl.fin 5) = some t ∧
      t.map Coll.step =
        [Step.broadcastSize, Step.broadcastSize, Step.broadcastData, Step.reduceSum,
          Step.broadcastMean, Step.reduceSumSqDev, Step.reduceMin, Step.reduceMax] ∧
      t.map Coll.buf =
        [Var.totalNum, Var.n, Var.x, Var.local_sum, Var.mean, Var.local_sum, Var.minabs,
          Var.maxabs] ∧
      t.map Coll.kind =
        [Kind.bcast, Kind.bcast, Kind.bcast, Kind.reduceSum, Kind.bcast, Kind.reduceSum,
          Kind.reduceMin, Kind.reduceMax] ∧
      t.map Coll.count = [1, 1, (runA 2).n, 1, 1, 1, 1, 1] ∧
      (∀ c ∈ t, c.root = 0) ∧
      ∃ ts : List (List Coll), mainTrace 8 (runA 2) = some ts ∧ ts.length = (runA 2).size ∧
        ∀ t' ∈ ts, t' = t :=
  collective_order (runA 2) 8 1 (Dbl.fin 5) (by decide) (by decide) (by decide)

/-- C12. Load balance: for every `n >= 0`, `P >= 1` with `n + P <= INT_MAX + 1`
and `rank < P`, the strided loop runs `ceil((n - rank) / P)` iterations when
`rank < n` and none otherwise, and the numbers of iterations of any two ranks
differ by at most one. -/
theorem load_balance (n P : Nat) (hP : 1 ≤ P) (hint : n + P ≤ INT_MAX + 1) :
    ∃ parts : Nat → List Nat,
      (∀ fuel rank, n ≤ fuel → rank < P → visitedInt rank P n fuel = some (parts rank)) ∧
      (∀ rank, rank < P → rank < n →
        (parts rank).length = ⌈((n - rank : ℕ) : ℚ) / (P : ℚ)⌉₊ ∧
        P * ((parts rank).length - 1) < n - rank ∧ n - rank ≤ P * (parts rank).length) ∧
      (∀ rank, rank < P → n ≤ rank → (parts rank).length = 0) ∧
      (∀ r s, r < P → s < P → (parts r).length ≤ (parts s).length + 1) := by
  refine ⟨fun r => owned r P n, ?_, ?_, ?_, ?_⟩
  · intro fuel rank hfuel _
    exact visitedInt_eq_owned rank P n fuel hP hint hfuel
  · intro rank _ hr
    show (owned rank P n).length = _ ∧ P * ((owned rank P n).length - 1) < n - rank ∧
      n - rank ≤ P * (owned rank P n).length
    rw [owned_length]
    exact ⟨count_ceil P n rank hP hr, (count_bounds P n rank hP hr).2⟩
  · intro rank _ hr
    show (owned rank P n).length = 0
    rw [owned_of_le rank P n hP hr]
    rfl
  · intro r s hr hs
    show (owned r P n).length ≤ (owned s P n).length + 1
    rw [owned_length, owned_length]
    exact count_near P n r s hP hr hs

theorem load_balance_witness :
    ∃ parts : Nat → List Nat,
      (∀ fuel rank, 10 ≤ fuel → rank < 3 → visitedInt rank 3 10 fuel = some (parts rank)) ∧
      (∀ rank, rank < 3 → rank < 10 →
        (parts rank).length = ⌈((10 - rank : ℕ) : ℚ) / ((3 : ℕ) : ℚ)⌉₊ ∧
        3 * ((parts rank).length - 1) < 10 - rank ∧ 10 - rank ≤ 3 * (parts rank).length) ∧
      (∀ rank, rank < 3 → 10 ≤ rank → (parts rank).length = 0) ∧
      (∀ r s, r < 3 → s < 3 → (parts r).length ≤ (parts s).length + 1) :=
  load_balance 10 3 (by decide) (by decide)

/-- C13. The data are read-only after the broadcast: for `n + P <= INT_MAX + 1`,
in every arithmetic of the doubles, on every rank the three passes return and
leave the block `x` as it was; the first and the third pass leave the whole
state of the rank as it was, and the second pass changes nothing but cells of
`squaredDiffs`. Whatever the state a pass starts from, if it returns, `x` is as
it was. -/
theorem dataset_read_only (A : Arith) (w : Run) (rank fuel : Nat) (mean : Dbl)
    (hsize : 1 ≤ w.size) (hint : w.n + w.size ≤ INT_MAX + 1) (hn : w.n ≤ w.totalNum)
    (hfuel : w.n ≤ fuel) :
    (∃ (p p2 : Proc) (s1 s2 : Dbl) (mn mx : ℚ),
      procInit w rank = some p ∧
      procPass1A A fuel p = some (p, s1) ∧
      procPass2A A fuel mean p = some (p2, s2) ∧
      procPass3A fuel p2 = some (p2, mn, mx) ∧
      p2.x = p.x ∧ p2.rank = p.rank ∧ p2.size = p.size ∧ p2.totalNum = p.totalNum ∧
      p2.n = p.n ∧ p2.squaredDiffs.len = p.squaredDiffs.len ∧
      (∀ i, i < w.n → p.x.cell i = w.xmem 0 i)) ∧
    (∀ (q : Proc) (f : Nat) (m : Dbl),
      (∀ r, procPass1A A f q = some r → r.1 = q) ∧
      (∀ r, procPass2A A f m q = some r → r.1.x = q.x) ∧
      (∀ r, procPass3A f q = some r → r.1 = q)) := by
  constructor
  · refine ⟨_, _, _, _, _, _, procInit_eq w rank hn,
      procPass1A_eq A w rank fuel _ hsize hint hn hfuel,
      procPass2A_eq A w mean rank fuel _ hsize hint hn hfuel,
      procPass3A_eq w rank fuel _ hsize hint hn hfuel, rfl, rfl, rfl, rfl, rfl, rfl, ?_⟩
    intro i hi
    simp [procAt, xOf, hi]
  · intro q f m
    exact ⟨fun r h => procPass1A_frame A f q r h, fun r h => procPass2A_frame A f m q r h,
      fun r h => procPass3A_frame f q r h⟩

theorem dataset_read_only_witness :
    (∃ (p p2 : Proc) (s1 s2 : Dbl) (mn mx : ℚ),
      procInit (runA 3) 1 = some p ∧
      procPass1A ieee 8 p = some (p, s1) ∧
      procPass2A ieee 8 (Dbl.fin 5) p = some (p2, s2) ∧
      procPass3A 8 p2 = some (p2, mn, mx) ∧
      p2.x = p.x ∧ p2.rank = p.rank ∧ p2.size = p.size ∧ p2.totalNum = p.totalNum ∧
      p2.n = p.n ∧ p2.squaredDiffs.len = p.squaredDiffs.len ∧
      (∀ i, i < (runA 3).n → p.x.cell i = (runA 3).xmem 0 i)) ∧
    (∀ (q : Proc) (f : Nat) (m : Dbl),
      (∀ r, procPass1A ieee f q = some r → r.1 = q) ∧
      (∀ r, procPass2A ieee f m q = some r → r.1.x = q.x) ∧
      (∀ r, procPass3A f q = some r → r.1 = q)) :=
  dataset_read_only ieee (runA 3) 1 8 (Dbl.fin 5) (by decide) (by decide) (by decide)
    (by decide)

/-- C14, as stated, fails: in double arithmetic, one rank on the one value
`2^27 + 1` with the mean `0` ends its second pass with
`local_sum = 18014398777917440`, since the square rounds, while the sum of
`(x[i] - m)^2` over its indices is `18014398777917441`. -/
theorem pass2_rounding_counterexample :
    visitedInt 0 runSq.size runSq.n 1 = some [0] ∧
    ((procInit runSq 0).bind (fun p => procPass2A ieee 1 (Dbl.fin 0) p)).map Prod.snd
      = some (Dbl.fin 18014398777917440) ∧
    ([0].map (fun k => (runSq.xmem 0 k - 0) ^ 2)).sum = 18014398777917441 ∧
    ¬ ∃ p p' : Proc, procInit runSq 0 = some p ∧
      procPass2A ieee 1 (Dbl.fin 0) p
        = some (p', Dbl.fin (([0].map (fun k => (runSq.xmem 0 k - 0) ^ 2)).sum)) := by
  have h1 : ((procInit runSq 0).bind (fun p => procPass2A ieee 1 (Dbl.fin 0) p)).map Prod.snd
      = some (Dbl.fin 18014398777917440) := by decide!
  have h2 : ([0].map (fun k => (runSq.xmem 0 k - 0) ^ 2)).sum = 18014398777917441 := by
    simp [runSq]
    norm_num
  refine ⟨by decide, h1, h2, ?_⟩
  rintro ⟨p, p', hp, hp2⟩
  rw [hp, Option.some_bind, hp2, Option.map_some', h2] at h1
  have h3 : (18014398777917441 : ℚ) = 18014398777917440 := Dbl.fin.inj (Option.some.inj h1)
  norm_num at h3

/-- C14, amended. For `rank < P` and `n + P <= INT_MAX + 1`, in every arithmetic
of the doubles: the store loop writes `(x[i] - mean)^2` into `squaredDiffs[i]`
at exactly the indices `i < n` with `i mod P = rank` and leaves every other
cell as it was; the sum loop adds up the cells at those same indices, so its
result does not depend on what `squaredDiffs` held before and equals the direct
sum of `(x[i] - mean)^2` over a strided loop. Over exact arithmetic, for a
finite mean `m`, that result is the sum of `(x[i] - m)^2` over the indices the
rank owns. -/
theorem pass2_local_aggregate (w : Run) (rank fuel : Nat) (sq : Nat → Dbl)
    (hr : rank < w.size) (hint : w.n + w.size ≤ INT_MAX + 1) (hn : w.n ≤ w.totalNum)
    (hfuel : w.n ≤ fuel) :
    ∃ l : List Nat, visitedInt rank w.size w.n fuel = some l ∧
      (∀ i, i ∈ l ↔ i < w.n ∧ i % w.size = rank) ∧
      procInit w rank = some (procAt w rank (w.sqmem rank)) ∧
      (∀ (A : Arith) (mean : Dbl), ∃ (v : Dbl) (cell' : Nat → Dbl),
        procPass2A A fuel mean (procAt w rank sq) = some (procAt w rank cell', v) ∧
        (∀ k, cell' k = if k ∈ l then sqDevA A mean (w.xmem 0 k) else sq k) ∧
        v = l.foldl (fun a k => A.add a (cell' k)) (Dbl.fin 0) ∧
        directSqDevA A fuel mean (procAt w rank sq) = some (procAt w rank sq, v) ∧
        (∀ sq' : Nat → Dbl, ∃ cell'' : Nat → Dbl,
          procPass2A A fuel mean (procAt w rank sq') = some (procAt w rank cell'', v))) ∧
      (∀ m : ℚ, ∃ cell' : Nat → Dbl,
        procPass2A exact fuel (Dbl.fin m) (procAt w rank sq)
          = some (procAt w rank cell',
              Dbl.fin ((l.map (fun k => (w.xmem 0 k - m) ^ 2)).sum))) := by
  have hsize : 0 < w.size := by omega
  refine ⟨owned rank w.size w.n, visitedInt_eq_owned rank w.size w.n fuel hsize hint hfuel,
    fun i => mem_owned_mod rank w.size w.n i hr, procInit_eq w rank hn, ?_, ?_⟩
  · intro A mean
    refine ⟨localSqDevA A w mean rank, sqAfterA A w mean rank sq,
      procPass2A_eq A w mean rank fuel sq hsize hint hn hfuel, fun k => rfl, ?_,
      directSqDevA_eq A w mean rank fuel sq hsize hint hn hfuel,
      fun sq' => ⟨_, procPass2A_eq A w mean rank fuel sq' hsize hint hn hfuel⟩⟩
    unfold localSqDevA
    apply List.foldl_ext
    intro a k hk
    simp [sqAfterA, hk]
  · intro m
    refine ⟨sqAfterA exact w (Dbl.fin m) rank sq, ?_⟩
    rw [procPass2A_eq exact w (Dbl.fin m) rank fuel sq hsize hint hn hfuel,
      localSqDevA_exact, localSqDev_fin]

theorem pass2_local_aggregate_witness :
    ∃ l : List Nat, visitedInt 1 (runA 3).size (runA 3).n 8 = some l ∧
      (∀ i, i ∈ l ↔ i < (runA 3).n ∧ i % (runA 3).size = 1) ∧
      procInit (runA 3) 1 = some (procAt (runA 3) 1 ((runA 3).sqmem 1)) ∧
      (∀ (A : Arith) (mean : Dbl), ∃ (v : Dbl) (cell' : Nat → Dbl),
        procPass2A A 8 mean (procAt (runA 3) 1 (fun _ => Dbl.nan))
          = some (procAt (runA 3) 1 cell', v) ∧
        (∀ k, cell' k = if k ∈ l then sqDevA A mean ((runA 3).xmem 0 k) else Dbl.nan) ∧
        v = l.foldl (fun a k => A.add a (cell' k)) (Dbl.fin 0) ∧
        directSqDevA A 8 mean (procAt (runA 3) 1 (fun _ => Dbl.nan))
          = some (procAt (runA 3) 1 (fun _ => Dbl.nan), v) ∧
        (∀ sq' : Nat → Dbl, ∃ cell'' : Nat → Dbl,
          procPass2A A 8 mean (procAt (runA 3) 1 sq') = some (procAt (runA 3) 1 cell'', v))) ∧
      (∀ m : ℚ, ∃ cell' : Nat → Dbl,
        procPass2A exact 8 (Dbl.fin m) (procAt (runA 3) 1 (fun _ => Dbl.nan))
          = some (procAt (runA 3) 1 cell',
              Dbl.fin ((l.map (fun k => ((runA 3).xmem 0 k - m) ^ 2)).sum))) :=
  pass2_local_aggregate (runA 3) 1 8 (fun _ => Dbl.nan) (by decide) (by decide) (by decide)
    (by decide)

/-- C15. Array accesses stay in bounds: for `n <= totalNum`, `P >= 1` with
`n + P <= INT_MAX + 1` and every rank, in every arithmetic of the doubles, `x`
has `totalNum` cells and `squaredDiffs` has `n` cells, every index `i` a loop
visits has `i < n <= totalNum`, so the reads `x[i]`, the writes and the reads
`squaredDiffs[i]` succeed, the read `x[0]` of the seed succeeds when
`totalNum > 0`, and the three passes and the whole run return a result. -/
theorem accesses_in_bounds (A : Arith) (w : Run) (rank fuel : Nat) (mean : Dbl)
    (hsize : 1 ≤ w.size) (hint : w.n + w.size ≤ INT_MAX + 1) (hn : w.n ≤ w.totalNum)
    (hfuel : w.n ≤ fuel) :
    ∃ (p p2 : Proc) (l : List Nat) (s1 s2 : Dbl) (mn mx : ℚ) (o : Outcome),
      procInit w rank = some p ∧ p.x.len = w.totalNum ∧ p.squaredDiffs.len = w.n ∧
      visitedInt rank w.size w.n fuel = some l ∧
      (∀ i ∈ l, i < w.n ∧ i < w.totalNum ∧ i + w.size ≤ INT_MAX ∧
        (p.x.get i).isSome = true ∧
        (∀ v, (p.squaredDiffs.set i v).isSome = true) ∧
        (p2.squaredDiffs.get i).isSome = true) ∧
      (w.totalNum > 0 → (p.x.get 0).isSome = true) ∧
      procPass1A A fuel p = some (p, s1) ∧
      procPass2A A fuel mean p = some (p2, s2) ∧
      procPass3A fuel p2 = some (p2, mn, mx) ∧
      mainA A fuel w = some o := by
  obtain ⟨o, ho, _⟩ := mainA_some A w fuel hsize hint hn hfuel
  refine ⟨_, _, _, _, _, _, _, o, procInit_eq w rank hn, rfl, rfl,
    visitedInt_eq_owned rank w.size w.n fuel hsize hint hfuel, ?_, ?_,
    procPass1A_eq A w rank fuel _ hsize hint hn hfuel,
    procPass2A_eq A w mean rank fuel _ hsize hint hn hfuel,
    procPass3A_eq w rank fuel _ hsize hint hn hfuel, ho⟩
  · intro i hi
    have h1 : i < w.n := owned_lt rank w.size w.n i hsize hi
    have h2 : i < w.totalNum := lt_of_lt_of_le h1 hn
    refine ⟨h1, h2, by omega, ?_, ?_, ?_⟩
    · simp [procAt, xOf, Buf.get, h2]
    · intro v
      simp [procAt, Buf.set, h1]
    · simp [procAt, Buf.get, h1]
  · intro ht
    simp [procAt, xOf, Buf.get, ht]

theorem accesses_in_bounds_witness :
    ∃ (p p2 : Proc) (l : List Nat) (s1 s2 : Dbl) (mn mx : ℚ) (o : Outcome),
      procInit (runA 3) 1 = some p ∧ p.x.len = (runA 3).totalNum ∧
      p.squaredDiffs.len = (runA 3).n ∧
      visitedInt 1 (runA 3).size (runA 3).n 8 = some l ∧
      (∀ i ∈ l, i < (runA 3).n ∧ i < (runA 3).totalNum ∧ i + (runA 3).size ≤ INT_MAX ∧
        (p.x.get i).isSome = true ∧
        (∀ v, (p.squaredDiffs.set i v).isSome = true) ∧
        (p2.squaredDiffs.get i).isSome = true) ∧
      ((runA 3).totalNum > 0 → (p.x.get 0).isSome = true) ∧
      procPass1A ieee 8 p = some (p, s1) ∧
      procPass2A ieee 8 (Dbl.fin 5) p = some (p2, s2) ∧
      procPass3A 8 p2 = some (p2, mn, mx) ∧
      mainA ieee 8 (runA 3) = some o :=
  accesses_in_bounds ieee (runA 3) 1 8 (Dbl.fin 5) (by decide) (by decide) (by decide)
    (by decide)

/-- C16. Result sanity, over exact arithmetic: for every data set of length
`n >= 1` in a block of `totalNum >= n` cells (so also when `totalNum = n`) and
every `P >= 1` with `n + P <= INT_MAX + 1`, the values rank 0 ends with and
prints satisfy `0 <= minAbs <= maxAbs`, both are the absolute value of some
data element, and the variance is a finite value `>= 0`. -/
theorem result_sanity (w : Run) (fuel : Nat) (hsize : 1 ≤ w.size) (h1 : 1 ≤ w.n)
    (hint : w.n + w.size ≤ INT_MAX + 1) (hn : w.n ≤ w.totalNum) (hfuel : w.n ≤ fuel) :
    ∃ (o : Outcome) (v : ℚ), mainA exact fuel w = some o ∧
      0 ≤ o.global_minabs ∧ o.global_minabs ≤ o.global_maxabs ∧
      (∃ i, i < w.n ∧ o.global_minabs = |w.xmem 0 i|) ∧
      (∃ i, i < w.n ∧ o.global_maxabs = |w.xmem 0 i|) ∧
      o.variance = Dbl.fin v ∧ 0 ≤ v ∧
      o.printed.minAbs = o.global_minabs ∧ o.printed.maxAbs = o.global_maxabs ∧
      o.printed.variance = o.variance := by
  obtain ⟨o, hmain, _, _, _, hv, a1, a2, a3, a4, hp⟩ :=
    mainA_stats w fuel hsize h1 hint hn hfuel
  refine ⟨o, _, hmain, ?_, ?_, a2, a4, hv, ?_, ?_, ?_, ?_⟩
  · obtain ⟨i, _, hi⟩ := a2
    rw [hi]
    exact abs_nonneg _
  · exact le_trans (a1 0 (by omega)) (a3 0 (by omega))
  · exact div_nonneg (Finset.sum_nonneg (fun i _ => sq_nonneg _)) (Nat.cast_nonneg _)
  · rw [hp]
  · rw [hp]
  · rw [hp]

theorem result_sanity_witness :
    ∃ (o : Outcome) (v : ℚ), mainA exact 4 (runB 3) = some o ∧
      0 ≤ o.global_minabs ∧ o.global_minabs ≤ o.global_maxabs ∧
      (∃ i, i < (runB 3).n ∧ o.global_minabs = |(runB 3).xmem 0 i|) ∧
      (∃ i, i < (runB 3).n ∧ o.global_maxabs = |(runB 3).xmem 0 i|) ∧
      o.variance = Dbl.fin v ∧ 0 ≤ v ∧
      o.printed.minAbs = o.global_minabs ∧ o.printed.maxAbs = o.global_maxabs ∧
      o.printed.variance = o.variance :=
  result_sanity (runB 3) 4 (by decide) (by decide) (by decide) (by decide) (by decide)

/-- C17. Empty data range: when `totalNum = 0`, hence `n = 0`, for every
`P >= 1` every rank ends its third pass with `minabs = maxabs = 0`, its block
`x` has no cell that could be read, and the minimum and the maximum absolute
value rank 0 ends with and prints are both `0`. -/
theorem empty_range (w : Run) (fuel : Nat) (hsize : 1 ≤ w.size) (hn : w.n ≤ w.totalNum)
    (ht : w.totalNum = 0) :
    w.n = 0 ∧
    (∀ rank, ∃ p : Proc, procInit w rank = some p ∧ p.x.len = 0 ∧
      (∀ i, p.x.get i = none) ∧ procPass3 fuel p = some (p, 0, 0)) ∧
    ∃ o : Outcome, main fuel w = some o ∧
      o.global_minabs = 0 ∧ o.global_maxabs = 0 ∧
      o.printed.minAbs = 0 ∧ o.printed.maxAbs = 0 := by
  have h0 : w.n = 0 := by omega
  refine ⟨h0, ?_, ?_⟩
  · intro rank
    refine ⟨_, procInit_eq w rank hn, ht, ?_, ?_⟩
    · intro i
      simp [procAt, xOf, Buf.get, ht]
    · unfold procPass3
      have hs : absSeed (procAt w rank (w.sqmem rank)) = some (0, 0) := by
        simp [absSeed, procAt, ht]
      rw [hs, Option.some_bind]
      exact forLoop_done _ _ _ _ _ _ (by rw [show (procAt w rank (w.sqmem rank)).n = w.n from rfl, h0]; exact Nat.zero_le _)
  · obtain ⟨gmin, gmax, hmain, hmin, hmax⟩ := main_zero w fuel hsize h0
    have hseed : (List.range w.size).map (seedOf w)
        = (List.range w.size).map (fun _ => (0 : ℚ)) := by
      apply List.map_congr_left
      intro r _
      simp [seedOf, ht]
    rw [hseed, reduce_const_zero min (min_self 0) w.size hsize] at hmin
    rw [hseed, reduce_const_zero max (max_self 0) w.size hsize] at hmax
    have e1 : gmin = 0 := (Option.some.inj hmin).symm
    have e2 : gmax = 0 := (Option.some.inj hmax).symm
    subst e1 e2
    exact ⟨_, hmain, rfl, rfl, rfl, rfl⟩

theorem empty_range_witness :
    (runEmpty 3 0 7).n = 0 ∧
    (∀ rank, ∃ p : Proc, procInit (runEmpty 3 0 7) rank = some p ∧ p.x.len = 0 ∧
      (∀ i, p.x.get i = none) ∧ procPass3 0 p = some (p, 0, 0)) ∧
    ∃ o : Outcome, main 0 (runEmpty 3 0 7) = some o ∧
      o.global_minabs = 0 ∧ o.global_maxabs = 0 ∧
      o.printed.minAbs = 0 ∧ o.printed.maxAbs = 0 :=
  empty_range (runEmpty 3 0 7) 0 (by decide) (by decide) rfl

end UpdatedMPI
